import Mathlib

/-!
Verification development for the real-time core of the aceInterview backend:
the utterance segmenter (`app/services/transcript.py`), the streaming answer
orchestrator (`app/qa.py`), the AI router (`app/ai_router.py`), the
per-transcript AI executor (`app/ws/ai_handler.py`) and the websocket
protocol handler (`app/ws/ws_live_interview.py`).

Python strings are embedded as `List Char`; Python floats used for times and
thresholds are embedded as rationals.  Each definition mirrors one Python
function of the repository and is named after it where Lean allows.
-/

namespace AceInterview

/-- Python strings, embedded as lists of characters. -/
abbrev Str := List Char

/-- Shortcut turning a Lean string literal into the embedding type. -/
def str (s : String) : Str := s.toList

/-- The ASCII whitespace characters that Python's `str.strip` / `str.split`
treat as whitespace (the repository only ever feeds ASCII text). -/
def isWS (c : Char) : Bool :=
  c = ' ' || c = '\t' || c = '\n' || c = '\r' || c = '\x0b' || c = '\x0c'

/-- Python `str.lstrip()`. -/
def lstrip (s : Str) : Str := s.dropWhile isWS

/-- Python `str.rstrip()`. -/
def rstrip (s : Str) : Str := (s.reverse.dropWhile isWS).reverse

/-- Python `str.strip()`. -/
def strip (s : Str) : Str := lstrip (rstrip s)

/-- Python `str.lower()` (ASCII-faithful). -/
def lowerStr (s : Str) : Str := s.map Char.toLower

/-- Python `str.upper()` (ASCII-faithful). -/
def upperStr (s : Str) : Str := s.map Char.toUpper

/-- Helper for Python `str.split()`: accumulates the current word (reversed). -/
def wordsAux : Str → Str → List Str
  | [], acc => if acc.isEmpty then [] else [acc.reverse]
  | c :: rest, acc =>
    if isWS c then
      if acc.isEmpty then wordsAux rest [] else acc.reverse :: wordsAux rest []
    else wordsAux rest (c :: acc)

/-- Python `str.split()` with no argument: split on whitespace runs, no empties. -/
def words (s : Str) : List Str := wordsAux s []

/-- Index of the first occurrence of `pat` in `s`, if any (Python `str.find`,
restricted to the cases the code guards with `in`). -/
def firstIdx (pat : Str) : Str → Option Nat
  | [] => if pat.isEmpty then some 0 else none
  | s@(_ :: rest) =>
    if pat.isPrefixOf s then some 0 else (firstIdx pat rest).map (· + 1)

/-- Python `pat in s` (substring containment). -/
def containsSub (pat s : Str) : Bool := (firstIdx pat s).isSome

/-- Python `s.split(pat, 1)[1]` when `pat in s`; `[]` when absent (the code
only uses this under a containment guard). -/
def afterFirst (pat s : Str) : Str :=
  match firstIdx pat s with
  | some i => s.drop (i + pat.length)
  | none => []

/-- Python `s.split(pat, 1)[0]`: the prefix before the first occurrence of
`pat`, or all of `s` when `pat` does not occur. -/
def beforeFirst (pat s : Str) : Str :=
  match firstIdx pat s with
  | some i => s.take i
  | none => s

/-- Python `s.endswith(p)` for one suffix. -/
def endsWith (p s : Str) : Bool := p.isSuffixOf s

/-- Python `s.endswith(tuple)` for several suffixes. -/
def endsWithAny (ps : List Str) (s : Str) : Bool := ps.any (fun p => endsWith p s)

/-!
## difflib.SequenceMatcher

`TranscriptAccumulator._is_duplicate` measures similarity with
`difflib.SequenceMatcher(None, a, b).ratio()`.  With no junk (the cached
utterances stay far below the 200-character autojunk threshold in every use
the claims touch) the stdlib algorithm is: find the longest matching block
(largest `k`; ties broken by smallest start in `a`, then smallest start in
`b`), recurse on the pieces left and right of it, and sum the block sizes
`M`; the ratio is `2*M / (len a + len b)`.
-/

/-- Length of the longest common prefix of two strings. -/
def lcpLen : Str → Str → Nat
  | a :: as, b :: bs => if a = b then lcpLen as bs + 1 else 0
  | _, _ => 0

/-- `difflib`'s `find_longest_match` over whole strings (no junk): the largest
matching block, earliest in `a`, then earliest in `b`; `(0,0,0)` when the
strings share nothing. -/
def bestMatch (a b : Str) : Nat × Nat × Nat :=
  (List.range a.length).foldl
    (fun acc i =>
      (List.range b.length).foldl
        (fun acc2 j =>
          let k := lcpLen (a.drop i) (b.drop j)
          if k > acc2.2.2 then (i, j, k) else acc2)
        acc)
    (0, 0, 0)

/-- Total size of `difflib`'s matching blocks, recursing around the longest
match; `fuel` only bounds the recursion (each recursive call works on a
strictly shorter pair, so the initial fuel below never runs out). -/
def matchTotal : Nat → Str → Str → Nat
  | 0, _, _ => 0
  | fuel + 1, a, b =>
    let m := bestMatch a b
    let i := m.1
    let j := m.2.1
    let k := m.2.2
    if k = 0 then 0
    else
      k + matchTotal fuel (a.take i) (b.take j) +
        matchTotal fuel (a.drop (i + k)) (b.drop (j + k))

/-- The sum `M` of matching-block sizes for `SequenceMatcher(None, a, b)`. -/
def smMatchSize (a b : Str) : Nat := matchTotal (a.length + b.length + 1) a b

/-- `SequenceMatcher(None, a, b).ratio() > num/den`, in exact arithmetic. -/
def ratioGt (a b : Str) (num den : Nat) : Bool :=
  2 * smMatchSize a b * den > num * (a.length + b.length)

/-!
## Utterance Segmenter — `TranscriptAccumulator` (app/services/transcript.py)

Wall-clock times (`time.time()`, Python floats) enter the model as an
explicit `now` argument.  Every float is an exact rational, so times are
embedded as rational numbers represented by an integer numerator over a
positive natural denominator, compared exactly by cross-multiplication (the
representation is not normalized; only order matters to the code).
-/

/-- A wall-clock instant or duration: the rational `num / den`. -/
structure QTime where
  num : Int
  den : Nat
deriving Repr, DecidableEq

/-- A whole-second instant. -/
def QTime.sec (n : Int) : QTime := ⟨n, 1⟩

/-- Exact subtraction. -/
def qsub (a b : QTime) : QTime := ⟨a.num * b.den - b.num * a.den, a.den * b.den⟩

/-- Exact `a >= b` (cross-multiplied; denominators are positive in every
use). -/
def qge (a b : QTime) : Bool := decide (b.num * a.den ≤ a.num * b.den)

/-- The float literal `3.5` (the default `pause_threshold`). -/
def qPauseDefault : QTime := ⟨7, 2⟩

/-- The float literal `1.5` (the quick-complete grace period). -/
def qGrace : QTime := ⟨3, 2⟩

/-- The mutable state of `TranscriptAccumulator`. -/
structure AccState where
  pause_threshold : QTime
  current_paragraph : Str
  last_speech_time : QTime
  is_speaking : Bool
  /-- `deque(maxlen=50)` of recently completed transcripts, oldest first. -/
  complete_paragraphs : List Str
  min_question_length : Nat
  waiting_for_continuation : Bool
deriving Repr, DecidableEq

/-- `TranscriptAccumulator(pause_threshold=3.5)`. -/
def AccState.init : AccState :=
  { pause_threshold := qPauseDefault
    current_paragraph := []
    last_speech_time := QTime.sec 0
    is_speaking := false
    complete_paragraphs := []
    min_question_length := 10
    waiting_for_continuation := false }

/-- `deque(maxlen=cap).append`: drop the oldest entries past the capacity. -/
def dequePush (cap : Nat) (q : List Str) (x : Str) : List Str :=
  let q' := q ++ [x]
  if q'.length > cap then q'.drop (q'.length - cap) else q'

/-- The `incomplete_endings` word list of `_looks_incomplete`. -/
def incomplete_endings : List Str :=
  [str "and", str "or", str "but", str "so",
   str "the", str "a", str "an",
   str "is", str "are", str "was", str "were",
   str "what's", str "how's", str "where's",
   str "tell me", str "explain", str "describe",
   str "you", str "your", str "my"]

/-- `TranscriptAccumulator._looks_incomplete`. -/
def looks_incomplete (t : Str) : Bool :=
  let text := lowerStr (strip t)
  if text.length < 5 then true
  else
    let ws := words text
    let last_word := (ws.getLast?).getD []
    if incomplete_endings.contains last_word then true
    else if ws.length < 5 && !(endsWithAny [str "?", str ".", str "!"] text) then true
    else if endsWithAny
        [str "what", str "how", str "why", str "when", str "where", str "who"] text then
      true
    else false

/-- The `continuation_starts` word list of `_is_continuation`. -/
def continuation_starts : List Str :=
  [str "and", str "or", str "but", str "so", str "also", str "then"]

/-- `TranscriptAccumulator._is_continuation`. -/
def is_continuation (previous current : Str) : Bool :=
  let prev_lower := strip (lowerStr previous)
  let curr_lower := strip (lowerStr current)
  let first_word := ((words curr_lower).head?).getD []
  if continuation_starts.contains first_word then true
  else
    let prev_words := (words prev_lower).dedup
    let curr_words := words curr_lower
    decide ((prev_words.filter (fun w => curr_words.contains w)).length > 2)

/-- `TranscriptAccumulator._is_duplicate` (threshold `0.85 = 17/20`). -/
def is_duplicate (cache : List Str) (text : Str) : Bool :=
  let text_lower := strip (lowerStr text)
  cache.any (fun prev => ratioGt text_lower prev 17 20)

/-- `TranscriptAccumulator.add_transcript`, returning the updated state and
the completed utterance, if one is emitted. -/
def add_transcript (st : AccState) (transcript : Str) (is_final speech_final : Bool)
    (now : QTime) : AccState × Option Str :=
  if (strip transcript).isEmpty then (st, none)
  else
    let clean := strip transcript
    if (is_final || speech_final) && decide (clean.length ≥ st.min_question_length) then
      -- FAST PATH: provider finalized and long enough
      if looks_incomplete clean then
        ({ st with
            current_paragraph := clean
            last_speech_time := now
            is_speaking := true
            waiting_for_continuation := true }, none)
      else
        let st1 :=
          { st with
              current_paragraph := []
              is_speaking := false
              waiting_for_continuation := false
              last_speech_time := now }
        if !is_duplicate st1.complete_paragraphs clean then
          ({ st1 with
              complete_paragraphs :=
                dequePush 50 st1.complete_paragraphs (lowerStr clean) }, some clean)
        else (st1, none)
    else
      -- ACCUMULATE PARTIAL SEGMENTS
      let st2 :=
        if is_final || speech_final then
          let cp :=
            if !st.current_paragraph.isEmpty then
              if is_continuation st.current_paragraph clean then
                st.current_paragraph ++ [' '] ++ clean
              else clean
            else clean
          { st with current_paragraph := cp, last_speech_time := now, is_speaking := true }
        else st
      -- PAUSE-BASED COMPLETION
      if st2.is_speaking && !st2.current_paragraph.isEmpty then
        let elapsed := qsub now st2.last_speech_time
        let should_complete :=
          qge elapsed st2.pause_threshold ||
            (qge elapsed qGrace && !looks_incomplete st2.current_paragraph)
        if should_complete then
          let completed := strip st2.current_paragraph
          let st3 :=
            { st2 with
                current_paragraph := []
                is_speaking := false
                waiting_for_continuation := false }
          if decide (completed.length ≥ st3.min_question_length) then
            if !is_duplicate st3.complete_paragraphs completed then
              ({ st3 with
                  complete_paragraphs :=
                    dequePush 50 st3.complete_paragraphs (lowerStr completed) },
                some completed)
            else (st3, none)
          else (st3, none)
        else (st2, none)
      else (st2, none)

/-- `TranscriptAccumulator.force_complete`. -/
def force_complete (st : AccState) : AccState × Option Str :=
  if !st.current_paragraph.isEmpty &&
      decide (st.current_paragraph.length ≥ st.min_question_length) then
    ({ st with
        current_paragraph := []
        is_speaking := false
        waiting_for_continuation := false }, some (strip st.current_paragraph))
  else (st, none)

/-- `TranscriptAccumulator.reset`. -/
def accReset (st : AccState) : AccState :=
  { st with
      current_paragraph := []
      is_speaking := false
      last_speech_time := QTime.sec 0
      waiting_for_continuation := false }

/-!
## Streaming Answer Orchestrator — `app/qa.py`

`process_transcript_with_ai` pre-filters the utterance, builds the request
and either calls `ask_ai` once (non-stream) or returns an async generator
over the provider's token stream (stream).  The prompt-construction strings
(`cached_system_prompt` handling) do not affect any event or parse decision,
so the embedding keeps a `settingsOk` flag for the `if not settings` guard
and drops the prompt text itself.
-/

/-- The `SKIP_PATTERNS` entries that are plain substrings (every regex
metacharacter-free pattern of the list, in source order). -/
def SKIP_PATTERNS_literal : List Str :=
  [str "let me know if", str "feel free to", str "if you need",
   str "always here to help", str "here to help you", str "just let me know",
   str "anything else", str "more questions or anything"]

/-- `re.search(p1 + ".*" + p2, s)`: an occurrence of `p1`, then any gap with
no newline (`.` does not match `\n`), then an occurrence of `p2`.  Embeds the
last `SKIP_PATTERNS` entry `"no problem.*if you need"`. -/
def dotstarMatch (p1 p2 s : Str) : Bool :=
  (List.range (s.length + 1)).any fun i =>
    p1.isPrefixOf (s.drop i) &&
      (let r := (s.drop i).drop p1.length
       (List.range (r.length + 1)).any fun k =>
         ((r.take k).all (fun c => c ≠ '\n')) && p2.isPrefixOf (r.drop k))

/-- The `question_words` list of `should_skip_transcript`. -/
def question_words : List Str :=
  [str "what", str "how", str "why", str "when", str "where", str "who",
   str "can you", str "could you", str "tell me", str "describe", str "explain",
   str "walk me through", str "implement"]

/-- `qa.should_skip_transcript`: the pre-filter (skip patterns, then the
short-statement-without-interrogative-cue heuristic). -/
def should_skip_transcript (transcript : Str) : Bool :=
  let lower := lowerStr transcript
  if SKIP_PATTERNS_literal.any (fun p => containsSub p lower) then true
  else if dotstarMatch (str "no problem") (str "if you need") lower then true
  else if decide ((words transcript).length < 15) &&
      !(question_words.any fun qw => containsSub qw lower) then true
  else false

/-- The result dictionary of `process_transcript_with_ai` / `_finalize_parse`
(the `cached_system_prompt` entry, pure prompt plumbing, is dropped). -/
structure QAResult where
  has_question : Bool
  question : Option Str
  answer : Option Str
deriving Repr, DecidableEq

/-- `{"has_question": False, "question": None, "answer": None}`. -/
def noQuestion : QAResult := ⟨false, none, none⟩

/-- The `QUESTION:` marker. -/
def qMark : Str := str "QUESTION:"

/-- The `ANSWER:` marker. -/
def aMark : Str := str "ANSWER:"

/-- `qa._finalize_parse` (the defensive final re-parse of the buffer). -/
def finalize_parse (transcript : Str) (output_text : Str) : QAResult :=
  let output := strip output_text
  if output.isEmpty then noQuestion
  else if (str "SKIP").isPrefixOf (upperStr output) then noQuestion
  else if containsSub qMark output && containsSub aMark output then
    let q0 := strip (beforeFirst aMark (afterFirst qMark output))
    let a0 := strip (afterFirst aMark output)
    let qa :=
      if q0.isEmpty || decide (q0.length < 5) then (strip transcript, output)
      else (q0, a0)
    if should_skip_transcript qa.1 then noQuestion
    else ⟨true, some qa.1, some qa.2⟩
  else
    let q := strip transcript
    let a := output
    if should_skip_transcript q then noQuestion else ⟨true, some q, some a⟩

/-!
### `ai_router.ask_ai` (app/ai_router.py)

The provider clients themselves are external collaborators; one dispatched
call either returns text or raises, which `ask_ai` catches and converts into
a human-readable `AI ERROR` string — it never raises itself.
-/

/-- What one dispatched provider call does. -/
inductive ProviderResult where
  | ok (text : Str)
  | raises (msg : Str)
deriving Repr, DecidableEq

/-- The model lists cached by `initialize_model_availability`. -/
structure ModelAvailability where
  openai : List Str
  gemini : List Str
deriving Repr, DecidableEq

/-- `ai_router.normalize_model`. -/
def normalize_model (m : Str) : Str :=
  if m.isEmpty then str "gpt-4o" else strip (lowerStr m)

/-- `ai_router.is_model_available`. -/
def is_model_available (av : ModelAvailability) (model : Str) : Bool :=
  let m := normalize_model model
  if (str "gpt").isPrefixOf m then av.openai.contains m
  else if (str "gemini").isPrefixOf m then av.gemini.contains m
  else false

/-- `ai_router.ask_ai`: normalize, check availability, dispatch, and catch
any provider exception into an `AI ERROR` string. -/
def ask_ai (av : ModelAvailability) (model : Str) (provider : ProviderResult) : Str :=
  let m := normalize_model model
  if !is_model_available av m then
    str "AI ERROR: Requested model is not available.\nRequested: " ++ m ++
      str "\nCheck model settings or available models list."
  else if (str "gpt").isPrefixOf m || (str "gemini").isPrefixOf m then
    match provider with
    | .ok t => t
    | .raises e =>
      str "AI ERROR: Model processing failed.\nModel: " ++ m ++ str "\nReason: " ++ e
  else
    str "AI ERROR: Unsupported model provider.\nModel: " ++ m ++
      str "\nSupported: OpenAI GPT (gpt-*), Google Gemini (gemini-*)"

/-- `process_transcript_with_ai` with `stream=False`: the pre-filter guards,
then exactly one `ask_ai` call parsed by `_finalize_parse`.  The second
component counts provider requests issued.  (`ask_ai` never raises, so the
caller's `except` branch around it is dead code.) -/
def process_transcript_with_ai (transcript : Str) (settingsOk : Bool)
    (av : ModelAvailability) (model : Str) (provider : ProviderResult) :
    QAResult × Nat :=
  if (strip transcript).isEmpty then (noQuestion, 0)
  else if !settingsOk then (noQuestion, 0)
  else if should_skip_transcript transcript then (noQuestion, 0)
  else (finalize_parse transcript (ask_ai av model provider), 1)

/-!
### The streaming generator `_stream_gen` (qa.py, stream=True)

The generator accumulates provider deltas into `buf`, runs
`_try_parse_incremental` after each one, and yields `question` / `delta` /
`done` / `error` events.  `_q_emitted` lives on the per-call closure object,
so it is fresh for every turn.  The provider stream is a parameter: it either
completes with a chunk list, or raises / times out after a prefix of it.
-/

/-- Events yielded by `_stream_gen`. -/
inductive GenEvent where
  | question (q : Str)
  | delta (d : Str)
  | done (r : QAResult)
  | error (message : Str)
deriving Repr, DecidableEq

/-- The mutable closure state of `_stream_gen`. -/
structure GenState where
  buf : Str
  emittedLen : Nat
  questionSent : Bool
  parsedQuestion : Option Str
  answerStarted : Bool
  qEmitted : Bool
deriving Repr, DecidableEq

/-- Initial `_stream_gen` state. -/
def GenState.init : GenState :=
  { buf := [], emittedLen := 0, questionSent := false, parsedQuestion := none
    answerStarted := false, qEmitted := false }

/-- One provider delta through `_try_parse_incremental` and the yield logic.
Returns the new state, the yielded events, and whether the generator
returned early (the mid-stream skip branch). -/
def stepChunk (st : GenState) (d : Str) : GenState × List GenEvent × Bool :=
  if d.isEmpty then (st, [], false)
  else
    let buf := st.buf ++ d
    if !(containsSub qMark buf && containsSub aMark buf) then
      ({ st with buf := buf }, [], false)
    else
      let q_part := strip (beforeFirst aMark (afterFirst qMark buf))
      let a_part := afterFirst aMark buf
      if !st.questionSent && !q_part.isEmpty && should_skip_transcript q_part then
        ({ st with buf := buf }, [.done noQuestion], true)
      else
        let qs :=
          if !st.questionSent && !q_part.isEmpty then (true, some q_part)
          else (st.questionSent, st.parsedQuestion)
        let qe :=
          match qs.2 with
          | some pq =>
            if qs.1 && !pq.isEmpty && !st.qEmitted then (true, [GenEvent.question pq])
            else (st.qEmitted, ([] : List GenEvent))
          | none => (st.qEmitted, [])
        let de :=
          if !a_part.isEmpty && decide (a_part.length > st.emittedLen) then
            (a_part.length, [GenEvent.delta (a_part.drop st.emittedLen)])
          else (st.emittedLen, ([] : List GenEvent))
        ({ st with
            buf := buf
            questionSent := qs.1
            parsedQuestion := qs.2
            answerStarted := true
            qEmitted := qe.1
            emittedLen := de.1 },
          qe.2 ++ de.2, false)

/-- Fold `stepChunk` over the consumed chunks, stopping on an early return. -/
def runGenAux (st : GenState) : List Str → GenState × List GenEvent × Bool
  | [] => (st, [], false)
  | d :: rest =>
    let s1 := stepChunk st d
    if s1.2.2 then s1
    else
      let s2 := runGenAux s1.1 rest
      (s2.1, s1.2.1 ++ s2.2.1, s2.2.2)

/-- How the provider's token stream ends for one turn. -/
inductive StreamOutcome where
  | completes (chunks : List Str)
  | failsAfter (chunks : List Str) (msg : Str)
  | timesOutAfter (chunks : List Str)
deriving Repr

/-- The full event sequence `_stream_gen` yields for one turn (assuming the
OpenAI SDK imports, i.e. the primary streaming path). -/
def runGen (transcript : Str) (outcome : StreamOutcome) : List GenEvent :=
  match outcome with
  | .completes cs =>
    let r := runGenAux GenState.init cs
    if r.2.2 then r.2.1 else r.2.1 ++ [.done (finalize_parse transcript r.1.buf)]
  | .failsAfter cs msg =>
    let r := runGenAux GenState.init cs
    if r.2.2 then r.2.1 else r.2.1 ++ [.error msg]
  | .timesOutAfter cs =>
    let r := runGenAux GenState.init cs
    if r.2.2 then r.2.1 else r.2.1 ++ [.error (str "AI timeout")]

/-- One provider request is issued in every non-prefiltered streaming turn,
whatever the outcome. -/
def streamProviderCalls : StreamOutcome → Nat
  | _ => 1

/-!
## AI executor — `run_ai_for_transcript` (app/ws/ai_handler.py)

The executor sends `answer_start` with a fresh request id (`uuid4`, modelled
by the `id` parameter, distinct per turn), then tries the streaming path.
The call `process_transcript_with_ai(..., stream=True)` at line 53 is *not*
awaited, so `stream_obj` is a coroutine object; a coroutine has no
`__aiter__` attribute, so the `hasattr(stream_obj, "__aiter__")` dispatch at
line 64 always fails and the streaming branch (lines 65–156) is unreachable
at runtime.  Every turn therefore runs the non-stream fallback (lines
158–201): one `asyncio.wait_for(process_transcript_with_ai(...), 30)` call,
then — when a question was detected and is not a case-insensitive duplicate
of a recorded previous question — append it to the `prev_questions` deque
(`maxlen=10`) and send `question_detected` and `answer_ready`.

The fallback's `try` wraps only the `wait_for`; the three sends and the
append run outside any exception handler.  Execution is embedded as a list
of atomic actions (sends, which are awaits and hence cancellation points,
and the synchronous append); the environment says whether the provider call
timed out and where an external `CancelledError`, if any, strikes.
-/

/-- Outbound protocol events of one answer cycle. -/
inductive WireEvent where
  | answer_start (id : Nat)
  | question_detected (id : Nat) (question : Str)
  | answer_delta (id : Nat) (delta : Str)
  | answer_ready (id : Nat) (question answer : Str)
  | answer_cancelled (id : Nat)
  | error (message : Str)
deriving Repr, DecidableEq

/-- One atomic step of the executed fallback path: an awaited outbound send,
or the synchronous `prev_questions.append`. -/
inductive TurnAction where
  | send (e : WireEvent)
  | appendQ (q : Str)
deriving Repr, DecidableEq

/-- How the environment treats this turn: the `wait_for` may time out, and an
external cancellation may strike while the provider call is awaited (caught:
`answer_cancelled` is sent) or at the `k`-th outbound send of the turn
(counting `answer_start` as send 0; not caught: the turn just stops). -/
inductive TurnEnv where
  | normal
  | timesOut
  | cancelDuringCall
  | cancelAtSend (k : Nat)
deriving Repr, DecidableEq

/-- The action sequence `run_ai_for_transcript` would run with no timeout and
no cancellation: `answer_start`, then the fallback's final-result handling of
the `process_transcript_with_ai` result. -/
def plannedActions (id : Nat) (transcript : Str) (settingsOk : Bool)
    (av : ModelAvailability) (model : Str) (provider : ProviderResult)
    (prevQ : List Str) : List TurnAction :=
  let result := (process_transcript_with_ai transcript settingsOk av model provider).1
  TurnAction.send (.answer_start id) ::
    (if result.has_question then
      let q := result.question.getD []
      let a := result.answer.getD []
      if prevQ.any (fun p => lowerStr q == lowerStr p) then []
      else
        [.appendQ q, .send (.question_detected id q), .send (.answer_ready id q a)]
    else [])

/-- Truncate an action plan right before its `k`-th send (a `CancelledError`
raised at that await; synchronous appends before it stay made). -/
def truncBeforeSend : Nat → List TurnAction → List TurnAction
  | _, [] => []
  | 0, .send _ :: _ => []
  | n, .send e :: rest => .send e :: truncBeforeSend (n - 1) rest
  | n, .appendQ q :: rest => .appendQ q :: truncBeforeSend n rest

/-- The action sequence under a given environment.  On timeout the handler
sends `error "AI timeout"`; on a cancellation caught at the provider await it
sends `answer_cancelled`; a cancellation at the `k`-th send truncates the
plan right before that send. -/
def envActions (id : Nat) (transcript : Str) (settingsOk : Bool)
    (av : ModelAvailability) (model : Str) (provider : ProviderResult)
    (prevQ : List Str) : TurnEnv → List TurnAction
  | .normal => plannedActions id transcript settingsOk av model provider prevQ
  | .timesOut => [.send (.answer_start id), .send (.error (str "AI timeout"))]
  | .cancelDuringCall => [.send (.answer_start id), .send (.answer_cancelled id)]
  | .cancelAtSend k =>
    truncBeforeSend k (plannedActions id transcript settingsOk av model provider prevQ)

/-- Execute the actions: the wire trace and the updated `prev_questions`. -/
def applyActions (prevQ : List Str) : List TurnAction → List WireEvent × List Str
  | [] => ([], prevQ)
  | .send e :: rest =>
    let r := applyActions prevQ rest
    (e :: r.1, r.2)
  | .appendQ q :: rest => applyActions (dequePush 10 prevQ q) rest

/-- One full executed turn of `run_ai_for_transcript`: wire trace, updated
`prev_questions`, and the number of provider requests issued (`ask_ai` is
called once per non-prefiltered turn, with no retry). -/
def run_ai_for_transcript (id : Nat) (transcript : Str) (settingsOk : Bool)
    (av : ModelAvailability) (model : Str) (provider : ProviderResult)
    (prevQ : List Str) (env : TurnEnv) : List WireEvent × List Str × Nat :=
  let acts := envActions id transcript settingsOk av model provider prevQ env
  let r := applyActions prevQ acts
  let calls :=
    match env with
    | .cancelAtSend 0 => 0  -- cancelled before `answer_start`: the call is never reached
    | _ => (process_transcript_with_ai transcript settingsOk av model provider).2
  (r.1, r.2, calls)

/-- One inbound call to the accumulator: a transcript fragment at a wall-clock
time, or a `force_complete` flush (used on teardown). -/
inductive AccCall where
  | frag (transcript : Str) (is_final speech_final : Bool) (now : QTime)
  | force
deriving Repr

/-- Run a sequence of calls, collecting every emitted utterance in order. -/
def accStep (st : AccState) : AccCall → AccState × Option Str
  | .frag t f sf now => add_transcript st t f sf now
  | .force => force_complete st

def runAcc : AccState → List AccCall → AccState × List Str
  | st, [] => (st, [])
  | st, c :: rest =>
    let p := accStep st c
    let r := runAcc p.1 rest
    (r.1, p.2.toList ++ r.2)

/-!
## Connection Protocol Handler — GenerationTask scheduling
(app/ws/ws_live_interview.py, transcript branch, lines 592–626)

On each completed utterance the handler runs, with no await between the two
statements (so atomically within the event loop):

    if ai_task and not ai_task.done():
        ai_task.cancel()
    ai_task = asyncio.create_task(run_ai_for_transcript(...))

`asyncio`'s default event loop is a FIFO queue of `call_soon` callbacks.
`Task.cancel()` marks the prior task and schedules its resumption (it was
suspended at an await), which raises `CancelledError` there, so once resumed
it can only send its `answer_cancelled` acknowledgement and finish;
`create_task` enqueues the new task's first step *behind* that pending
resumption.  A running task is modelled as a script of outbound event
payloads; one scheduler step pops the front task, lets it emit one payload
(one await round-trip through the single serialized send path), and
re-enqueues it.  Delivery of a completed utterance and scheduler steps
interleave arbitrarily.
-/

/-- One in-flight GenerationTask as the scheduler sees it. -/
structure GTask where
  tid : Nat
  script : List Nat
  cancelled : Bool
deriving Repr, DecidableEq

/-- What reaches the wire: a task's ordinary outbound event, or the
`answer_cancelled` acknowledgement a cancelled task sends when resumed. -/
inductive SchedEvent where
  | emit (tid : Nat) (payload : Nat)
  | cancelledAck (tid : Nat)
deriving Repr, DecidableEq

/-- The turn a wire event belongs to. -/
def SchedEvent.tid : SchedEvent → Nat
  | .emit t _ => t
  | .cancelledAck t => t

/-- Protocol-handler system state: the event loop's ready queue, the
handler's `ai_task` reference, the id counter, and the wire so far. -/
structure SysState where
  queue : List GTask
  current : Option Nat
  nextId : Nat
  wire : List SchedEvent
deriving Repr, DecidableEq

/-- Initial state: no tasks, nothing sent. -/
def SysState.init : SysState :=
  { queue := [], current := none, nextId := 0, wire := [] }

/-- A scheduling choice: a completed utterance is delivered to the handler
(which cancels the running task and spawns a fresh one), or the event loop
runs the front task for one step. -/
inductive SchedStep where
  | deliver (script : List Nat)
  | runStep
deriving Repr

/-- One step of the system. -/
def schedStep (s : SysState) : SchedStep → SysState
  | .deliver script =>
    -- `if ai_task and not ai_task.done(): ai_task.cancel()` then `create_task`
    let q := s.queue.map fun t =>
      if some t.tid = s.current then { t with cancelled := true } else t
    { s with
        queue := q ++ [⟨s.nextId, script, false⟩]
        current := some s.nextId
        nextId := s.nextId + 1 }
  | .runStep =>
    match s.queue with
    | [] => s
    | t :: rest =>
      if t.cancelled then
        -- resumed with CancelledError: send `answer_cancelled`, finish
        { s with queue := rest, wire := s.wire ++ [.cancelledAck t.tid] }
      else
        match t.script with
        | [] => { s with queue := rest }
        | e :: es =>
          if es.isEmpty then
            { s with queue := rest, wire := s.wire ++ [.emit t.tid e] }
          else
            { s with
                queue := rest ++ [{ t with script := es }]
                wire := s.wire ++ [.emit t.tid e] }

/-- Run a whole schedule. -/
def runSched (s : SysState) (steps : List SchedStep) : SysState :=
  steps.foldl schedStep s

/-- The non-cancelled GenerationTasks currently alive. -/
def activeTasks (s : SysState) : List GTask :=
  s.queue.filter fun t => !t.cancelled

/-!
## Observation helpers used by the claim statements
-/

/-- Concatenation, in emission order, of the generator's `delta` payloads. -/
def deltasConcat (evs : List GenEvent) : Str :=
  evs.foldr (fun e acc => match e with | .delta d => d ++ acc | _ => acc) []

/-- The result carried by the first `done` event, if any. -/
def doneResult (evs : List GenEvent) : Option QAResult :=
  (evs.filterMap fun e => match e with | .done r => some r | _ => none).head?

/-- Number of `question` events in a generator trace. -/
def countQuestionEvents (evs : List GenEvent) : Nat :=
  (evs.filter fun e => match e with | .question _ => true | _ => false).length

/-- Number of `question_detected` messages in a wire trace. -/
def countQuestionDetected (w : List WireEvent) : Nat :=
  (w.filter fun e => match e with | .question_detected _ _ => true | _ => false).length

/-- Whether a wire trace contains an `answer_cancelled` message. -/
def hasCancelledEvent (w : List WireEvent) : Bool :=
  w.any fun e => match e with | .answer_cancelled _ => true | _ => false

/-- Whether a wire trace contains an `answer_delta` or `answer_ready`
message (answer content). -/
def hasAnswerEvent (w : List WireEvent) : Bool :=
  w.any fun e =>
    match e with
    | .answer_delta _ _ => true
    | .answer_ready _ _ _ => true
    | _ => false

/-- Whether a turn action is a `question_detected` send. -/
def isQDSend : TurnAction → Bool
  | .send (.question_detected _ _) => true
  | _ => false

/-- Whether a turn action is an `answer_cancelled` send. -/
def isCancelSend : TurnAction → Bool
  | .send (.answer_cancelled _) => true
  | _ => false

/-- Whether a wire trace contains an `error` message. -/
def hasErrorEvent (w : List WireEvent) : Bool :=
  w.any fun e => match e with | .error _ => true | _ => false

/-!
## Concrete scenarios used by counterexamples and witnesses
-/

/-- The claim C6 scenario: the interim fragment, the finalized tail fragment,
and a later fragment arriving after more than the pause threshold of silence
(the accumulator is only ever driven by incoming calls; pause-based
completion fires on the next nonempty call). -/
def c6Calls : List AccCall :=
  [.frag (str "What's your approach") false false (QTime.sec 0),
   .frag (str "to caching") true true (QTime.sec 1),
   .frag (str "okay") false false (QTime.sec 5)]

/-- The merged sentence claim C6 expects. -/
def c6Merged : Str := str "What's your approach to caching"

/-- Claim C8 scenario: a complete-looking utterance is emitted, a similar
(ratio `46/51 > 0.85`) incomplete-looking one is buffered, and
`force_complete` flushes it. -/
def c8Calls : List AccCall :=
  [.frag (str "what do you like to eat?") true false (QTime.sec 0),
   .frag (str "what do you like to eat and") true false (QTime.sec 1),
   .force]

/-- A transcript that passes the pre-filter (it carries interrogative cues). -/
def cacheQuestion : Str := str "How would you design a small cache"

/-- Model availability with `gpt-4o` loaded (the default model). -/
def avDefault : ModelAvailability := { openai := [str "gpt-4o"], gemini := [] }

/-- A provider stream whose full output is `QUESTION: Explain the CAP
theorem\nANSWER: Hi` (note the space after `ANSWER:`). -/
def c2Chunks : List Str := [str "QUESTION: Explain the CAP theorem\nANSWER: Hi"]

/-- A provider output whose parsed question is shorter than 5 characters, so
`_finalize_parse` falls back to the transcript as the question. -/
def c3Chunks : List Str := [str "QUESTION: How?\nANSWER: hello there friend"]

/-- The two-chunk provider stream of the claim C2 witness run: the answer
text starts right after `ANSWER:`, with no space, and arrives in two pieces. -/
def c2wChunks : List Str :=
  [str "QUESTION: Explain the CAP theorem\nANSWER:Hi", str " there"]

/-- The full buffer accumulated from `c2wChunks`. -/
def c2wBuf : Str := str "QUESTION: Explain the CAP theorem\nANSWER:Hi there"

/-! # Lemmas and theorems -/

section StringLemmas

theorem firstIdx_isPrefix {pat s : Str} {i : Nat} (h : firstIdx pat s = some i) :
    pat.isPrefixOf (s.drop i) = true := by
  induction s generalizing i with
  | nil =>
    simp only [firstIdx] at h
    split at h
    · rename_i hp
      cases h
      simpa [List.isPrefixOf_iff_prefix, List.isEmpty_iff.mp hp] using List.nil_prefix
    · cases h
  | cons c rest ih =>
    simp only [firstIdx] at h
    split at h
    · rename_i hp
      cases h
      simpa using hp
    · rcases Option.map_eq_some'.mp h with ⟨j, hj, rfl⟩
      simpa using ih hj

theorem firstIdx_bound {pat s : Str} {i : Nat} (h : firstIdx pat s = some i) :
    i + pat.length ≤ s.length := by
  have hp := firstIdx_isPrefix h
  rw [List.isPrefixOf_iff_prefix] at hp
  have hlen := hp.length_le
  simp only [List.length_drop] at hlen
  induction s generalizing i with
  | nil =>
    simp only [firstIdx] at h
    split at h
    · cases h
      simp only [List.isEmpty_iff] at *
      rename_i hpat
      simp [hpat]
    · cases h
  | cons c rest ih =>
    simp only [firstIdx] at h
    split at h
    · cases h
      simpa using hlen
    · rcases Option.map_eq_some'.mp h with ⟨j, hj, rfl⟩
      have h1 := firstIdx_isPrefix hj
      rw [List.isPrefixOf_iff_prefix] at h1
      have h2 := h1.length_le
      simp only [List.length_drop] at h2
      have := ih hj h1 h2
      simp only [List.length_cons]
      omega

theorem firstIdx_minimal {pat s : Str} {i : Nat} (h : firstIdx pat s = some i)
    {j : Nat} (hj : j < i) : pat.isPrefixOf (s.drop j) = false := by
  induction s generalizing i j with
  | nil =>
    simp only [firstIdx] at h
    split at h
    · cases h; omega
    · cases h
  | cons c rest ih =>
    simp only [firstIdx] at h
    split at h
    · cases h; omega
    · rename_i hnp
      rcases Option.map_eq_some'.mp h with ⟨i', hi', rfl⟩
      cases j with
      | zero =>
        simpa using Bool.of_not_eq_true hnp
      | succ j' =>
        have hj' : j' < i' := by omega
        simpa using ih hi' hj'

/-- A prefix test does not change under appending, when the pattern fits
inside the first list. -/
theorem isPrefixOf_append_of_le {pat s t : Str} (h : pat.length ≤ s.length) :
    pat.isPrefixOf (s ++ t) = pat.isPrefixOf s := by
  by_cases hp : pat.isPrefixOf s = true
  · rw [hp]
    rw [List.isPrefixOf_iff_prefix] at hp ⊢
    exact hp.trans (List.prefix_append s t)
  · have hp' : pat.isPrefixOf s = false := by
      cases hps : pat.isPrefixOf s
      · rfl
      · exact absurd hps hp
    rw [hp']
    cases hq : pat.isPrefixOf (s ++ t)
    · rfl
    · exfalso
      rw [List.isPrefixOf_iff_prefix] at hq
      have : pat = (s ++ t).take pat.length := List.prefix_iff_eq_take.mp hq
      rw [List.take_append_of_le_length h] at this
      have : pat <+: s := by
        rw [List.prefix_iff_eq_take, ← this]
      rw [List.isPrefixOf_iff_prefix] at hp
      exact hp this

/-- First-occurrence stability: appending text on the right cannot move the
first occurrence of a pattern that is already present. -/
theorem firstIdx_append {pat s : Str} {i : Nat} (h : firstIdx pat s = some i)
    (t : Str) : firstIdx pat (s ++ t) = some i := by
  induction s generalizing i with
  | nil =>
    simp only [firstIdx] at h
    split at h
    · rename_i hp
      cases h
      rw [List.isEmpty_iff] at hp
      subst hp
      cases t with
      | nil => simp [firstIdx]
      | cons a r => simp [firstIdx, List.isPrefixOf]
    · cases h
  | cons c rest ih =>
    simp only [firstIdx] at h
    split at h
    · rename_i hp
      cases h
      have hle : pat.length ≤ (c :: rest).length := by
        rw [List.isPrefixOf_iff_prefix] at hp
        exact hp.length_le
      have hpre : pat.isPrefixOf ((c :: rest) ++ t) = true := by
        rw [isPrefixOf_append_of_le hle]; exact hp
      rw [List.cons_append] at hpre
      simp [firstIdx, hpre]
    · rename_i hnp
      rcases Option.map_eq_some'.mp h with ⟨i', hi', rfl⟩
      have hb := firstIdx_bound hi'
      have hnp' : pat.isPrefixOf ((c :: rest) ++ t) = false := by
        have hle : pat.length ≤ (c :: rest).length := by
          simp only [List.length_cons]; omega
        rw [isPrefixOf_append_of_le hle]
        cases hps : pat.isPrefixOf (c :: rest)
        · rfl
        · exact absurd hps hnp
      rw [List.cons_append] at hnp'
      simp only [List.cons_append, firstIdx, List.append_eq, hnp', Bool.false_eq_true,
        if_false]
      rw [ih hi']
      rfl

/-- `afterFirst` under appending: the answer suffix just grows. -/
theorem afterFirst_append {pat s : Str} (h : (firstIdx pat s).isSome) (t : Str) :
    afterFirst pat (s ++ t) = afterFirst pat s ++ t := by
  rcases Option.isSome_iff_exists.mp h with ⟨i, hi⟩
  have hb := firstIdx_bound hi
  rw [afterFirst, afterFirst, hi, firstIdx_append hi t]
  exact List.drop_append_of_le_length hb

/-- Containment is stable under appending on the right. -/
theorem containsSub_append {pat s : Str} (h : containsSub pat s = true) (t : Str) :
    containsSub pat (s ++ t) = true := by
  rw [containsSub, Option.isSome_iff_exists] at h
  rcases h with ⟨i, hi⟩
  rw [containsSub, firstIdx_append hi t]
  rfl

end StringLemmas

section RatioBounds

/-- Each bump of `bestMatch`'s inner fold never decreases the block size. -/
theorem foldl_bump_mono (g : Nat × Nat × Nat → Nat → Nat × Nat × Nat)
    (hg : ∀ acc j, acc.2.2 ≤ (g acc j).2.2) :
    ∀ (l : List Nat) (acc : Nat × Nat × Nat), acc.2.2 ≤ (l.foldl g acc).2.2 := by
  intro l
  induction l with
  | nil => intro acc; simp
  | cons j rest ih =>
    intro acc
    calc acc.2.2 ≤ (g acc j).2.2 := hg acc j
    _ ≤ (rest.foldl g (g acc j)).2.2 := ih (g acc j)

/-- The longest matching block found by `bestMatch` is at least the common
prefix of the two strings (the candidate at `(0, 0)`). -/
theorem lcpLen_le_bestMatch (a b : Str) (ha : 0 < a.length) (hb : 0 < b.length) :
    lcpLen a b ≤ (bestMatch a b).2.2 := by
  unfold bestMatch
  set inner := fun (i : Nat) (acc : Nat × Nat × Nat) (j : Nat) =>
    if lcpLen (a.drop i) (b.drop j) > acc.2.2 then (i, j, lcpLen (a.drop i) (b.drop j))
    else acc with hinner
  have hstep : ∀ (i : Nat) (acc : Nat × Nat × Nat) (j : Nat),
      acc.2.2 ≤ (inner i acc j).2.2 := by
    intro i acc j
    simp only [hinner]
    split
    · rename_i h; exact Nat.le_of_lt h
    · exact Nat.le_refl _
  have houter : ∀ (l : List Nat) (acc : Nat × Nat × Nat),
      acc.2.2 ≤ (l.foldl (fun acc i => (List.range b.length).foldl (inner i) acc) acc).2.2 := by
    refine foldl_bump_mono _ (fun acc i => ?_)
    exact foldl_bump_mono (inner i) (hstep i) (List.range b.length) acc
  obtain ⟨n, hn⟩ : ∃ n, a.length = n + 1 := ⟨a.length - 1, by omega⟩
  obtain ⟨m, hm⟩ : ∃ m, b.length = m + 1 := ⟨b.length - 1, by omega⟩
  rw [hn, List.range_succ_eq_map]
  simp only [List.foldl_cons]
  have hfirstInner :
      lcpLen a b ≤ ((List.range b.length).foldl (inner 0) (0, 0, 0)).2.2 := by
    rw [hm, List.range_succ_eq_map]
    simp only [List.foldl_cons]
    have h00 : lcpLen a b ≤ (inner 0 (0, 0, 0) 0).2.2 := by
      simp only [hinner, List.drop_zero]
      split
      · simp
      · rename_i h
        simp only [gt_iff_lt, Nat.not_lt] at h
        simpa using h
    calc lcpLen a b ≤ (inner 0 (0, 0, 0) 0).2.2 := h00
    _ ≤ _ := foldl_bump_mono (inner 0) (hstep 0) _ _
  calc lcpLen a b ≤ ((List.range b.length).foldl (inner 0) (0, 0, 0)).2.2 := hfirstInner
  _ ≤ _ := houter _ _

/-- `matchTotal` keeps at least the size of the block it splits on. -/
theorem bestMatch_le_matchTotal (fuel : Nat) (a b : Str) :
    (bestMatch a b).2.2 ≤ matchTotal (fuel + 1) a b := by
  simp only [matchTotal]
  split
  · rename_i h; simp [h]
  · omega

/-- The total matched size is at least the common prefix length. -/
theorem lcpLen_le_smMatchSize (a b : Str) (ha : 0 < a.length) (hb : 0 < b.length) :
    lcpLen a b ≤ smMatchSize a b := by
  unfold smMatchSize
  calc lcpLen a b ≤ (bestMatch a b).2.2 := lcpLen_le_bestMatch a b ha hb
  _ ≤ matchTotal (a.length + b.length + 1) a b := by
      have := bestMatch_le_matchTotal (a.length + b.length) a b
      simpa using this

end RatioBounds

/-- The similarity ratio of the two C8 utterances exceeds `0.85`: their
common prefix alone already matches 23 of `(27 + 24)` characters, so
`ratio ≥ 46/51 > 17/20`. -/
theorem c8_ratio :
    ratioGt (lowerStr (str "what do you like to eat and"))
      (lowerStr (str "what do you like to eat?")) 17 20 = true := by
  unfold ratioGt
  have h23 : lcpLen (lowerStr (str "what do you like to eat and"))
      (lowerStr (str "what do you like to eat?")) = 23 := by decide
  have hge := lcpLen_le_smMatchSize (lowerStr (str "what do you like to eat and"))
    (lowerStr (str "what do you like to eat?")) (by decide) (by decide)
  rw [h23] at hge
  have hla : (lowerStr (str "what do you like to eat and")).length = 27 := by decide
  have hlb : (lowerStr (str "what do you like to eat?")).length = 24 := by decide
  rw [hla, hlb]
  simp only [decide_eq_true_eq]
  omega

/-- Claim C6 (counterexample): on the claimed fragment sequence — the interim
fragment, the finalized tail, then silence past the pause threshold — the
Segmenter does not emit the merged sentence "What's your approach to
caching"; the interim fragment is never buffered. -/
theorem c6_counterexample :
    (runAcc AccState.init c6Calls).2 ≠ [c6Merged] := by decide

/-- Claim C6 (amended): the `is_final=false` fragment is discarded (only
final/speech-final fragments are buffered), the finalized `"to caching"`
fragment is held as incomplete, and the pause-triggered completion on the
next call emits exactly the single utterance `"to caching"` — a proper
fragment of the expected sentence. -/
theorem c6_actual_emission :
    (runAcc AccState.init c6Calls).2 = [str "to caching"] := by decide

/-- Claim C8 (counterexample): the second utterance is a `>0.85`-similar
duplicate of the first (which is still in the 50-entry window when
`force_complete` runs), yet the run emits both: `force_complete` flushes the
buffer without consulting `_is_duplicate`. -/
theorem c8_counterexample :
    (runAcc AccState.init c8Calls).2 =
      [str "what do you like to eat?", str "what do you like to eat and"]
    ∧ is_duplicate [lowerStr (str "what do you like to eat?")]
        (str "what do you like to eat and") = true := by
  constructor
  · decide
  · show (_ : Bool) = true
    unfold is_duplicate
    simp only [List.any_cons, List.any_nil, Bool.or_false]
    have : strip (lowerStr (str "what do you like to eat and")) =
        lowerStr (str "what do you like to eat and") := by decide
    rw [this]
    exact c8_ratio

/-- Claim C8 (amended): both `add_transcript` emission paths are guarded by
the duplicate check (an utterance that `_is_duplicate` flags against the
current window is silently dropped), but `force_complete` never consults the
window: its output is unchanged under any replacement of the cache, so a
`>0.85`-similar candidate flushed through it is emitted a second time. -/
theorem c8_dedup_guards (st : AccState) (t : Str) (f sf : Bool) (now : QTime)
    (u : Str) :
    ((add_transcript st t f sf now).2 = some u →
      is_duplicate st.complete_paragraphs u = false)
    ∧ ∀ cache, (force_complete { st with complete_paragraphs := cache }).2 =
        (force_complete st).2 := by
  constructor
  · intro hemit
    unfold add_transcript at hemit
    dsimp only at hemit
    repeat' split at hemit
    all_goals simp at hemit
    all_goals
      rename_i hdup
      subst hemit
      simpa using hdup
  · intro cache
    unfold force_complete
    simp
    split <;> rfl

/-- Claim C8 (witness): the guard statement instantiated at the concrete C8
inputs — the first utterance is emitted, hence was not a duplicate of the
(empty) window, and `force_complete`'s emission ignores a replaced cache. -/
theorem c8_dedup_guards_witness :
    is_duplicate AccState.init.complete_paragraphs
      (str "what do you like to eat?") = false
    ∧ (force_complete
        { AccState.init with complete_paragraphs := [str "unrelated cache"] }).2 =
      (force_complete AccState.init).2 :=
  ⟨(c8_dedup_guards AccState.init (str "what do you like to eat?") true false
      (QTime.sec 0) (str "what do you like to eat?")).1 (by decide),
   (c8_dedup_guards AccState.init (str "what do you like to eat?") true false
      (QTime.sec 0) (str "what do you like to eat?")).2 [str "unrelated cache"]⟩

/-- When the pre-filter fires, `process_transcript_with_ai` resolves to the
no-question result with no provider request. -/
theorem process_of_skip {t : Str} (h : should_skip_transcript t = true)
    (ok : Bool) (av : ModelAvailability) (m : Str) (p : ProviderResult) :
    process_transcript_with_ai t ok av m p = (noQuestion, 0) := by
  unfold process_transcript_with_ai
  split
  · rfl
  · split
    · rfl
    · simp [h]

/-- Claim C9: an utterance matching a fixed skip pattern, or shorter than the
15-word limit with no interrogative cue, is pre-filtered: the turn resolves
as a no-question result, no request reaches the completion provider, and the
executor forwards nothing beyond `answer_start`. -/
theorem c9_prefilter_no_provider_call (t : Str) (ok : Bool) (av : ModelAvailability)
    (m : Str) (p : ProviderResult) (id : Nat) (pq : List Str)
    (h : SKIP_PATTERNS_literal.any (fun pat => containsSub pat (lowerStr t)) = true
      ∨ dotstarMatch (str "no problem") (str "if you need") (lowerStr t) = true
      ∨ ((words t).length < 15
          ∧ (question_words.any fun qw => containsSub qw (lowerStr t)) = false)) :
    should_skip_transcript t = true
    ∧ process_transcript_with_ai t ok av m p = (noQuestion, 0)
    ∧ (run_ai_for_transcript id t ok av m p pq .normal).1 = [.answer_start id]
    ∧ (run_ai_for_transcript id t ok av m p pq .normal).2.2 = 0 := by
  have hskip : should_skip_transcript t = true := by
    unfold should_skip_transcript
    rcases h with h | h | ⟨h1, h2⟩
    · simp [h]
    · simp [h]
    · simp [h1, h2]
  have hp := process_of_skip hskip ok av m p
  refine ⟨hskip, hp, ?_, ?_⟩
  · simp [run_ai_for_transcript, envActions, plannedActions, hp, noQuestion,
      applyActions]
  · simp [run_ai_for_transcript, hp]

/-- Claim C9 (witness): `"Let me know if you need anything else"` matches the
pattern `"let me know if"`, is pre-filtered, and causes no provider call. -/
theorem c9_witness :
    should_skip_transcript (str "Let me know if you need anything else") = true
    ∧ process_transcript_with_ai (str "Let me know if you need anything else")
        true avDefault (str "gpt-4o") (.ok (str "QUESTION: Q\nANSWER: A")) =
      (noQuestion, 0)
    ∧ (run_ai_for_transcript 3 (str "Let me know if you need anything else")
        true avDefault (str "gpt-4o") (.ok (str "QUESTION: Q\nANSWER: A")) []
        .normal).1 = [.answer_start 3]
    ∧ (run_ai_for_transcript 3 (str "Let me know if you need anything else")
        true avDefault (str "gpt-4o") (.ok (str "QUESTION: Q\nANSWER: A")) []
        .normal).2.2 = 0 :=
  c9_prefilter_no_provider_call _ true avDefault (str "gpt-4o")
    (.ok (str "QUESTION: Q\nANSWER: A")) 3 [] (Or.inl (by decide))

/-- Claim C10: `answer_start`, carrying the turn's request id, is the first
outbound event of every uncancelled turn — it is sent before the skip
decision is even made — and every turn whose result has `has_question`
false (whether pre-filtered, resolved as a provider `SKIP`, or with its
extracted question skip-filtered) produces `answer_start` followed by no
question or answer events. -/
theorem c10_answer_start_first (id : Nat) (t : Str) (ok : Bool)
    (av : ModelAvailability) (m : Str) (p : ProviderResult) (pq : List Str) :
    (run_ai_for_transcript id t ok av m p pq .normal).1.head? =
      some (.answer_start id)
    ∧ ((process_transcript_with_ai t ok av m p).1.has_question = false →
        (run_ai_for_transcript id t ok av m p pq .normal).1 = [.answer_start id]
        ∧ countQuestionDetected
            (run_ai_for_transcript id t ok av m p pq .normal).1 = 0
        ∧ hasAnswerEvent (run_ai_for_transcript id t ok av m p pq .normal).1 =
            false) := by
  constructor
  · simp [run_ai_for_transcript, envActions, plannedActions, applyActions]
  · intro hnq
    simp [run_ai_for_transcript, envActions, plannedActions, hnq,
      applyActions, countQuestionDetected, hasAnswerEvent]

/-- Claim C10 (witness): a turn that is not pre-filtered but whose provider
output is a `SKIP` resolves with `has_question` false and emits exactly
`answer_start` and nothing else. -/
theorem c10_witness :
    (run_ai_for_transcript 7 cacheQuestion
        true avDefault (str "gpt-4o") (.ok (str "SKIP - no question")) []
        .normal).1 = [.answer_start 7]
    ∧ countQuestionDetected
        (run_ai_for_transcript 7 cacheQuestion
          true avDefault (str "gpt-4o") (.ok (str "SKIP - no question")) []
          .normal).1 = 0
    ∧ hasAnswerEvent
        (run_ai_for_transcript 7 cacheQuestion
          true avDefault (str "gpt-4o") (.ok (str "SKIP - no question")) []
          .normal).1 = false :=
  (c10_answer_start_first 7 cacheQuestion true
    avDefault (str "gpt-4o") (.ok (str "SKIP - no question")) []).2 (by decide)

section QuestionUniqueness

theorem countQuestionEvents_append (l1 l2 : List GenEvent) :
    countQuestionEvents (l1 ++ l2) =
      countQuestionEvents l1 + countQuestionEvents l2 := by
  simp [countQuestionEvents, List.filter_append]

/-- One chunk step emits a `question` event exactly when the `_q_emitted`
flag flips from unset to set. -/
theorem stepChunk_q (st : GenState) (d : Str) :
    (countQuestionEvents (stepChunk st d).2.1 = 0
      ∧ (stepChunk st d).1.qEmitted = st.qEmitted)
    ∨ (countQuestionEvents (stepChunk st d).2.1 = 1
      ∧ st.qEmitted = false ∧ (stepChunk st d).1.qEmitted = true) := by
  unfold stepChunk
  dsimp only
  repeat' split
  all_goals simp_all [countQuestionEvents]

/-- Over any chunk sequence the generator emits at most one `question`
event, and only when the flag was initially unset. -/
theorem runGenAux_q (cs : List Str) : ∀ st : GenState,
    countQuestionEvents (runGenAux st cs).2.1 = 0
    ∨ (countQuestionEvents (runGenAux st cs).2.1 = 1 ∧ st.qEmitted = false) := by
  induction cs with
  | nil => intro st; left; simp [runGenAux, countQuestionEvents]
  | cons d rest ih =>
    intro st
    unfold runGenAux
    dsimp only
    split
    · rcases stepChunk_q st d with ⟨h0, _⟩ | ⟨h1, hq, _⟩
      · left; exact h0
      · right; exact ⟨h1, hq⟩
    · rcases stepChunk_q st d with ⟨h0, hsame⟩ | ⟨h1, hq0, hq1⟩
      · rcases ih (stepChunk st d).1 with h | ⟨h, hq⟩
        · left; simp [countQuestionEvents_append, h0, h]
        · right
          refine ⟨by simp [countQuestionEvents_append, h0, h], ?_⟩
          rw [← hsame]; exact hq
      · rcases ih (stepChunk st d).1 with h | ⟨h, hq⟩
        · right
          exact ⟨by simp [countQuestionEvents_append, h1, h], hq0⟩
        · rw [hq1] at hq; cases hq

/-- One chunk step either returns early yielding exactly `[done noQuestion]`,
or continues yielding no `done` event. -/
theorem stepChunk_done (st : GenState) (d : Str) :
    ((stepChunk st d).2.2 = true ∧ (stepChunk st d).2.1 = [.done noQuestion])
    ∨ ((stepChunk st d).2.2 = false
        ∧ ∀ r, GenEvent.done r ∉ (stepChunk st d).2.1) := by
  unfold stepChunk
  dsimp only
  repeat' split
  all_goals simp_all

/-- `runGenAux` yields a `done` event only as its very last event, and only
when it stopped early. -/
theorem runGenAux_done (cs : List Str) : ∀ st : GenState,
    ((runGenAux st cs).2.2 = true
      ∧ ∃ pre, (runGenAux st cs).2.1 = pre ++ [GenEvent.done noQuestion]
          ∧ ∀ r, GenEvent.done r ∉ pre)
    ∨ ((runGenAux st cs).2.2 = false
        ∧ ∀ r, GenEvent.done r ∉ (runGenAux st cs).2.1) := by
  induction cs with
  | nil => intro st; right; simp [runGenAux]
  | cons d rest ih =>
    intro st
    unfold runGenAux
    dsimp only
    split
    · rename_i hstop
      rcases stepChunk_done st d with ⟨_, hevs⟩ | ⟨hns, _⟩
      · left
        refine ⟨hstop, [], by simpa using hevs, by simp⟩
      · rw [hns] at hstop; cases hstop
    · rename_i hnostop
      rcases stepChunk_done st d with ⟨hs, _⟩ | ⟨_, hnd⟩
      · rw [hs] at hnostop; exact absurd rfl hnostop
      · rcases ih (stepChunk st d).1 with ⟨hstop2, pre, hpre, hnd2⟩ | ⟨hns2, hnd2⟩
        · left
          refine ⟨hstop2, (stepChunk st d).2.1 ++ pre, ?_, ?_⟩
          · rw [hpre, List.append_assoc]
          · intro r
            simp only [List.mem_append]
            push_neg
            exact ⟨hnd r, hnd2 r⟩
        · right
          refine ⟨hns2, fun r => ?_⟩
          simp only [List.mem_append]
          push_neg
          exact ⟨hnd r, hnd2 r⟩

/-- List bookkeeping: a `done` placed last is the only `done`, so any split
of the list at a `done` leaves an empty tail. -/
theorem last_done_aux :
    ∀ (pre l1 : List GenEvent) (q r : QAResult) (l2 : List GenEvent),
      pre ++ [GenEvent.done q] = l1 ++ GenEvent.done r :: l2 →
      (∀ r', GenEvent.done r' ∉ pre) → l2 = [] := by
  intro pre
  induction pre with
  | nil =>
    intro l1 q r l2 heq _
    cases l1 with
    | nil =>
      simp only [List.nil_append, List.cons.injEq] at heq
      exact heq.2.symm
    | cons a l1' =>
      simp only [List.nil_append, List.cons_append, List.cons.injEq] at heq
      exact absurd heq.2 (by simp)
  | cons p pre' ih =>
    intro l1 q r l2 heq hnp
    cases l1 with
    | nil =>
      simp only [List.cons_append, List.nil_append, List.cons.injEq] at heq
      apply absurd _ (hnp r)
      rw [← heq.1]
      exact List.mem_cons_self p pre'
    | cons a l1' =>
      simp only [List.cons_append, List.cons.injEq] at heq
      exact ih l1' q r l2 heq.2 (fun r' hmem => hnp r' (List.mem_cons_of_mem p hmem))

/-- A list with no `done` event cannot be split at one. -/
theorem no_done_no_split {evs l1 l2 : List GenEvent} {r : QAResult}
    (hnd : ∀ r', GenEvent.done r' ∉ evs)
    (heq : evs = l1 ++ GenEvent.done r :: l2) : False := by
  apply hnd r
  rw [heq]
  simp

/-- The generator's `done` event, when present, is the final event of the
turn: nothing follows it. -/
theorem runGen_done_terminal (t : Str) (oc : StreamOutcome) :
    ∀ (l1 : List GenEvent) (r : QAResult) (l2 : List GenEvent),
      runGen t oc = l1 ++ GenEvent.done r :: l2 → l2 = [] := by
  intro l1 r l2 heq
  rcases oc with cs | ⟨cs, msg⟩ | cs <;> (unfold runGen at heq; dsimp only at heq)
  · rcases runGenAux_done cs GenState.init with ⟨hs, pre, hpre, hnd⟩ | ⟨hns, hnd⟩
    · rw [hs] at heq
      simp only [if_true] at heq
      exact last_done_aux pre l1 noQuestion r l2 (hpre ▸ heq) hnd
    · rw [hns] at heq
      simp only [Bool.false_eq_true, if_false] at heq
      exact last_done_aux _ l1 _ r l2 heq (fun r' hmem => hnd r' hmem)
  · rcases runGenAux_done cs GenState.init with ⟨hs, pre, hpre, hnd⟩ | ⟨hns, hnd⟩
    · rw [hs] at heq
      simp only [if_true] at heq
      exact last_done_aux pre l1 noQuestion r l2 (hpre ▸ heq) hnd
    · rw [hns] at heq
      simp only [Bool.false_eq_true, if_false] at heq
      have hnd2 : ∀ x, GenEvent.done x
          ∉ (runGenAux GenState.init cs).2.1 ++ [GenEvent.error msg] := by
        intro x
        simp only [List.mem_append]
        push_neg
        exact ⟨hnd x, by simp⟩
      exact absurd heq (fun h => no_done_no_split hnd2 h)
  · rcases runGenAux_done cs GenState.init with ⟨hs, pre, hpre, hnd⟩ | ⟨hns, hnd⟩
    · rw [hs] at heq
      simp only [if_true] at heq
      exact last_done_aux pre l1 noQuestion r l2 (hpre ▸ heq) hnd
    · rw [hns] at heq
      simp only [Bool.false_eq_true, if_false] at heq
      have hnd2 : ∀ x, GenEvent.done x
          ∉ (runGenAux GenState.init cs).2.1 ++ [GenEvent.error (str "AI timeout")] := by
        intro x
        simp only [List.mem_append]
        push_neg
        exact ⟨hnd x, by simp⟩
      exact absurd heq (fun h => no_done_no_split hnd2 h)

end QuestionUniqueness

section DeltaConcat

theorem and_true_parts {a b : Bool} (h : (a && b) = true) :
    a = true ∧ b = true := by
  rw [Bool.and_eq_true] at h
  exact h

theorem deltasConcat_append (l1 l2 : List GenEvent) :
    deltasConcat (l1 ++ l2) = deltasConcat l1 ++ deltasConcat l2 := by
  induction l1 with
  | nil => rfl
  | cons e rest ih =>
    cases e <;> simp [deltasConcat, List.foldr_cons] at ih ⊢ <;> simp [ih]

theorem stepChunk_full (st : GenState) (d : Str) :
    (stepChunk st d).2.2 = true
    ∨ (d.isEmpty = true ∧ stepChunk st d = (st, [], false))
    ∨ ((stepChunk st d).1.buf = st.buf ++ d
        ∧ (stepChunk st d).2.2 = false
        ∧ (((containsSub qMark (st.buf ++ d) && containsSub aMark (st.buf ++ d)) = false
             ∧ (stepChunk st d).1.emittedLen = st.emittedLen
             ∧ (stepChunk st d).2.1 = [])
           ∨ ((containsSub qMark (st.buf ++ d) && containsSub aMark (st.buf ++ d)) = true
               ∧ (((stepChunk st d).1.emittedLen
                      = (afterFirst aMark (st.buf ++ d)).length
                    ∧ deltasConcat (stepChunk st d).2.1
                        = (afterFirst aMark (st.buf ++ d)).drop st.emittedLen
                    ∧ st.emittedLen < (afterFirst aMark (st.buf ++ d)).length)
                  ∨ ((stepChunk st d).1.emittedLen = st.emittedLen
                      ∧ deltasConcat (stepChunk st d).2.1 = []
                      ∧ (afterFirst aMark (st.buf ++ d)).length ≤ st.emittedLen))))) := by
  unfold stepChunk
  dsimp only
  split
  · rename_i hd
    exact Or.inr (Or.inl ⟨hd, rfl⟩)
  · rename_i hd
    split
    · rename_i hm
      refine Or.inr (Or.inr ⟨rfl, rfl, Or.inl ⟨?_, rfl, rfl⟩⟩)
      cases hx : (containsSub qMark (st.buf ++ d) && containsSub aMark (st.buf ++ d))
      · rfl
      · rw [hx] at hm
        exact absurd hm (by decide)
    · rename_i hm
      have hmt : (containsSub qMark (st.buf ++ d)
          && containsSub aMark (st.buf ++ d)) = true := by
        cases hx : (containsSub qMark (st.buf ++ d) && containsSub aMark (st.buf ++ d))
        · exact absurd (show (!(containsSub qMark (st.buf ++ d)
            && containsSub aMark (st.buf ++ d))) = true by rw [hx]; rfl) hm
        · rfl
      split
      · exact Or.inl rfl
      · refine Or.inr (Or.inr ⟨rfl, rfl, Or.inr ⟨hmt, ?_⟩⟩)
        repeat' split
        all_goals first
          | (refine Or.inl ⟨rfl, by simp [deltasConcat], ?_⟩
             try simp only [Bool.and_eq_true, Bool.not_eq_true',
               decide_eq_true_eq, gt_iff_lt] at *
             omega)
          | (refine Or.inr ⟨rfl, by simp [deltasConcat], ?_⟩
             try simp only [Bool.not_eq_true, Bool.and_eq_false_iff,
               Bool.not_eq_false', decide_eq_false_iff_not, gt_iff_lt, not_lt,
               List.isEmpty_iff_length_eq_zero] at *
             omega)

theorem stepChunk_spec (st : GenState) (d : Str)
    (h1 : (containsSub qMark st.buf && containsSub aMark st.buf) = true →
          st.emittedLen = (afterFirst aMark st.buf).length)
    (h2 : (containsSub qMark st.buf && containsSub aMark st.buf) = false →
          st.emittedLen = 0)
    (hne : (stepChunk st d).2.2 = false) :
    (∃ t, (stepChunk st d).1.buf = st.buf ++ t)
    ∧ ((containsSub qMark (stepChunk st d).1.buf
          && containsSub aMark (stepChunk st d).1.buf) = true →
        (stepChunk st d).1.emittedLen
          = (afterFirst aMark (stepChunk st d).1.buf).length)
    ∧ ((containsSub qMark (stepChunk st d).1.buf
          && containsSub aMark (stepChunk st d).1.buf) = false →
        (stepChunk st d).1.emittedLen = 0)
    ∧ deltasConcat (stepChunk st d).2.1 =
        (if (containsSub qMark (stepChunk st d).1.buf
              && containsSub aMark (stepChunk st d).1.buf) = true
          then (afterFirst aMark (stepChunk st d).1.buf).drop st.emittedLen
          else []) := by
  rcases stepChunk_full st d with hf | ⟨hd, hstep⟩ | ⟨hbuf, _, hcases⟩
  · rw [hf] at hne
    exact Bool.noConfusion hne
  · rw [hstep]
    dsimp only
    refine ⟨⟨[], by simp⟩, h1, h2, ?_⟩
    split
    · rename_i hmk
      rw [h1 hmk, List.drop_length]
      rfl
    · rfl
  · rw [hbuf]
    rcases hcases with ⟨hmf, hemit, hevs⟩ | ⟨hmt, hsub⟩
    · have hold : (containsSub qMark st.buf && containsSub aMark st.buf) = false := by
        cases hx : (containsSub qMark st.buf && containsSub aMark st.buf)
        · rfl
        · rw [Bool.and_eq_true] at hx
          have hq := containsSub_append hx.1 d
          have ha := containsSub_append hx.2 d
          rw [hq, ha] at hmf
          exact Bool.noConfusion hmf
      refine ⟨⟨d, rfl⟩, ?_, ?_, ?_⟩
      · intro hc
        rw [hc] at hmf
        exact Bool.noConfusion hmf
      · intro _
        rw [hemit]
        exact h2 hold
      · rw [hevs, hmf]
        simp [deltasConcat]
    · refine ⟨⟨d, rfl⟩, ?_, ?_, ?_⟩
      · intro _
        rcases hsub with ⟨he, _, _⟩ | ⟨he, _, hle⟩
        · exact he
        · rw [he]
          cases hx : (containsSub qMark st.buf && containsSub aMark st.buf)
          · have h0 := h2 hx
            omega
          · have ha : containsSub aMark st.buf = true := (and_true_parts hx).2
            have h1' := h1 hx
            rw [afterFirst_append ha d] at hle ⊢
            rw [List.length_append] at hle ⊢
            omega
      · intro hc
        rw [hmt] at hc
        exact Bool.noConfusion hc
      · rw [if_pos hmt]
        rcases hsub with ⟨_, hΔ, _⟩ | ⟨_, hΔ, hle⟩
        · exact hΔ
        · rw [hΔ]
          exact (List.drop_eq_nil_of_le hle).symm

theorem runGenAux_spec (cs : List Str) : ∀ st : GenState,
    ((containsSub qMark st.buf && containsSub aMark st.buf) = true →
      st.emittedLen = (afterFirst aMark st.buf).length) →
    ((containsSub qMark st.buf && containsSub aMark st.buf) = false →
      st.emittedLen = 0) →
    (runGenAux st cs).2.2 = false →
    (∃ t, (runGenAux st cs).1.buf = st.buf ++ t)
    ∧ ((containsSub qMark (runGenAux st cs).1.buf
          && containsSub aMark (runGenAux st cs).1.buf) = true →
        (runGenAux st cs).1.emittedLen
          = (afterFirst aMark (runGenAux st cs).1.buf).length)
    ∧ deltasConcat (runGenAux st cs).2.1 =
        (if (containsSub qMark (runGenAux st cs).1.buf
              && containsSub aMark (runGenAux st cs).1.buf) = true
          then (afterFirst aMark (runGenAux st cs).1.buf).drop st.emittedLen
          else []) := by
  induction cs with
  | nil =>
    intro st h1 h2 _
    unfold runGenAux
    dsimp only
    refine ⟨⟨[], by simp⟩, h1, ?_⟩
    split
    · rename_i hmk
      rw [h1 hmk, List.drop_length]
      rfl
    · rfl
  | cons d rest ih =>
    intro st h1 h2 hne
    unfold runGenAux at hne ⊢
    dsimp only at hne ⊢
    by_cases hstop : (stepChunk st d).2.2 = true
    · rw [if_pos hstop] at hne
      rw [hne] at hstop
      exact Bool.noConfusion hstop
    · have hs1 : (stepChunk st d).2.2 = false := by
        cases hx : (stepChunk st d).2.2
        · rfl
        · exact absurd hx hstop
      rw [if_neg hstop] at hne ⊢
      dsimp only at hne ⊢
      obtain ⟨⟨t1, hb1⟩, h1', h2', hΔ1⟩ := stepChunk_spec st d h1 h2 hs1
      obtain ⟨⟨t2, hb2⟩, H1, HΔ⟩ := ih (stepChunk st d).1 h1' h2' hne
      refine ⟨⟨t1 ++ t2, by rw [hb2, hb1, List.append_assoc]⟩, H1, ?_⟩
      rw [deltasConcat_append, hΔ1, HΔ]
      by_cases hm2 : (containsSub qMark (runGenAux (stepChunk st d).1 rest).1.buf
          && containsSub aMark (runGenAux (stepChunk st d).1 rest).1.buf) = true
      · rw [if_pos hm2, if_pos hm2]
        by_cases hm1 : (containsSub qMark (stepChunk st d).1.buf
            && containsSub aMark (stepChunk st d).1.buf) = true
        · rw [if_pos hm1]
          have hasub : containsSub aMark (stepChunk st d).1.buf = true :=
            (and_true_parts hm1).2
          have he1 : (stepChunk st d).1.emittedLen
              = (afterFirst aMark (stepChunk st d).1.buf).length := h1' hm1
          have hb2' : afterFirst aMark (runGenAux (stepChunk st d).1 rest).1.buf
              = afterFirst aMark (stepChunk st d).1.buf ++ t2 := by
            rw [hb2]
            exact afterFirst_append hasub t2
          have hle : st.emittedLen ≤ (afterFirst aMark (stepChunk st d).1.buf).length := by
            cases hx : (containsSub qMark st.buf && containsSub aMark st.buf)
            · rw [h2 hx]
              exact Nat.zero_le _
            · have ha0 : containsSub aMark st.buf = true := (and_true_parts hx).2
              rw [h1 hx, hb1, afterFirst_append ha0 t1, List.length_append]
              omega
          rw [hb2', he1, List.drop_left, List.drop_append_of_le_length hle]
        · have hm1f : (containsSub qMark (stepChunk st d).1.buf
              && containsSub aMark (stepChunk st d).1.buf) = false := by
            cases hx : (containsSub qMark (stepChunk st d).1.buf
                && containsSub aMark (stepChunk st d).1.buf)
            · rfl
            · exact absurd hx hm1
          rw [if_neg hm1]
          have hz : (stepChunk st d).1.emittedLen = 0 := h2' hm1f
          have hz0 : st.emittedLen = 0 := by
            cases hx : (containsSub qMark st.buf && containsSub aMark st.buf)
            · exact h2 hx
            · exfalso
              have hq := containsSub_append (and_true_parts hx).1 t1
              have ha := containsSub_append (and_true_parts hx).2 t1
              rw [← hb1] at hq ha
              rw [hq, ha] at hm1f
              exact Bool.noConfusion hm1f
          rw [hz, hz0]
          simp
      · rw [if_neg hm2, if_neg hm2]
        have hm1f : ¬ (containsSub qMark (stepChunk st d).1.buf
            && containsSub aMark (stepChunk st d).1.buf) = true := by
          intro hx
          have hq := containsSub_append (and_true_parts hx).1 t2
          have ha := containsSub_append (and_true_parts hx).2 t2
          rw [← hb2] at hq ha
          exact hm2 (by rw [hq, ha]; rfl)
        rw [if_neg hm1f]
        simp

theorem doneResult_append_done (evs : List GenEvent) (r : QAResult)
    (hnd : ∀ x, GenEvent.done x ∉ evs) :
    doneResult (evs ++ [GenEvent.done r]) = some r := by
  unfold doneResult
  rw [List.filterMap_append]
  have h0 : evs.filterMap
      (fun e => match e with | GenEvent.done r => some r | _ => none) = [] := by
    rw [List.filterMap_eq_nil_iff]
    intro e he
    cases e with
    | done x => exact absurd he (hnd x)
    | question q => rfl
    | delta d1 => rfl
    | error m => rfl
  rw [h0]
  rfl

/-- Claim C2 (counterexample): on a stream whose output has a space after
`ANSWER:`, the single emitted `answer_delta` payload is `" Hi"` while the
terminal `done` event's answer text is the stripped `"Hi"`; concatenating
the delta payloads does not yield the done answer. -/
theorem c2_counterexample :
    (doneResult (runGen cacheQuestion (StreamOutcome.completes c2Chunks))).map
        QAResult.answer = some (some (str "Hi"))
    ∧ deltasConcat (runGen cacheQuestion (StreamOutcome.completes c2Chunks))
        ≠ str "Hi" := by
  decide

/-- Claim C2 (amended): for a completed stream with no mid-stream skip whose
final buffer carries both markers and no surrounding whitespace, and whose
parsed question is well-formed (nonempty, at least 5 characters, not
pre-filtered), the emitted `answer_delta` payloads concatenate, in order, to
the raw suffix of the final buffer after the first `ANSWER:` marker, and the
terminal `done` event carries the whitespace-stripped version of that
concatenation as its answer: deltas and done answer agree exactly up to
stripping. -/
theorem c2_deltas_vs_done (transcript : Str) (cs : List Str)
    (stf : GenState) (evs0 : List GenEvent)
    (hrun : runGenAux GenState.init cs = (stf, evs0, false))
    (hmk : (containsSub qMark stf.buf && containsSub aMark stf.buf) = true)
    (hstrip : strip stf.buf = stf.buf)
    (hskip : (str "SKIP").isPrefixOf (upperStr stf.buf) = false)
    (hq0 : (strip (beforeFirst aMark (afterFirst qMark stf.buf))).isEmpty = false)
    (hq5 : ¬ (strip (beforeFirst aMark (afterFirst qMark stf.buf))).length < 5)
    (hq0skip : should_skip_transcript
        (strip (beforeFirst aMark (afterFirst qMark stf.buf))) = false) :
    deltasConcat (runGen transcript (StreamOutcome.completes cs))
      = afterFirst aMark stf.buf
    ∧ doneResult (runGen transcript (StreamOutcome.completes cs))
        = some ⟨true, some (strip (beforeFirst aMark (afterFirst qMark stf.buf))),
            some (strip (deltasConcat
              (runGen transcript (StreamOutcome.completes cs))))⟩ := by
  have hintro1 : (containsSub qMark GenState.init.buf
      && containsSub aMark GenState.init.buf) = true →
      GenState.init.emittedLen = (afterFirst aMark GenState.init.buf).length := by
    intro h
    exact absurd h (by decide)
  have hintro2 : (containsSub qMark GenState.init.buf
      && containsSub aMark GenState.init.buf) = false →
      GenState.init.emittedLen = 0 := fun _ => rfl
  have hne : (runGenAux GenState.init cs).2.2 = false := by rw [hrun]
  obtain ⟨-, -, hD⟩ := runGenAux_spec cs GenState.init hintro1 hintro2 hne
  rw [hrun] at hD
  dsimp only at hD
  rw [if_pos hmk] at hD
  dsimp only [GenState.init] at hD
  rw [List.drop_zero] at hD
  have hevs : runGen transcript (StreamOutcome.completes cs)
      = evs0 ++ [GenEvent.done (finalize_parse transcript stf.buf)] := by
    unfold runGen
    dsimp only
    rw [hrun]
    dsimp only
    simp
  have hnd : ∀ x, GenEvent.done x ∉ evs0 := by
    rcases runGenAux_done cs GenState.init with ⟨hs, -⟩ | ⟨-, hnd0⟩
    · rw [hrun] at hs
      exact absurd hs (by simp)
    · rw [hrun] at hnd0
      exact hnd0
  have hDfull : deltasConcat (runGen transcript (StreamOutcome.completes cs))
      = afterFirst aMark stf.buf := by
    rw [hevs, deltasConcat_append, hD]
    simp [deltasConcat]
  refine ⟨hDfull, ?_⟩
  rw [hDfull, hevs, doneResult_append_done _ _ hnd]
  have hne0 : stf.buf.isEmpty = false := by
    cases hb : stf.buf with
    | nil =>
      rw [hb] at hmk
      exact absurd hmk (by decide)
    | cons c r => rfl
  unfold finalize_parse
  rw [hstrip]
  rw [if_neg (by rw [hne0]; exact Bool.noConfusion)]
  rw [if_neg (by rw [hskip]; exact Bool.noConfusion)]
  rw [if_pos hmk]
  simp [hq0, decide_eq_false hq5, hq0skip]

/-- Claim C2 (amended, witness): the two-chunk run emits deltas `"Hi"` and
`" there"`, whose concatenation `"Hi there"` is literally the buffer suffix
after `ANSWER:` and equals the done answer after stripping. -/
theorem c2_deltas_vs_done_witness :
    deltasConcat (runGen cacheQuestion (StreamOutcome.completes c2wChunks))
      = afterFirst aMark c2wBuf
    ∧ doneResult (runGen cacheQuestion (StreamOutcome.completes c2wChunks))
        = some ⟨true, some (strip (beforeFirst aMark (afterFirst qMark c2wBuf))),
            some (strip (deltasConcat
              (runGen cacheQuestion (StreamOutcome.completes c2wChunks))))⟩ :=
  c2_deltas_vs_done cacheQuestion c2wChunks
    { buf := c2wBuf, emittedLen := 8, questionSent := true,
      parsedQuestion := some (str "Explain the CAP theorem"),
      answerStarted := true, qEmitted := true }
    [GenEvent.question (str "Explain the CAP theorem"),
     GenEvent.delta (str "Hi"), GenEvent.delta (str " there")]
    (by decide) (by decide) (by decide) (by decide) (by decide) (by decide)
    (by decide)

end DeltaConcat

section SchedulerInvariant

/-- One scheduler step preserves the protocol-handler invariant: queue task
ids strictly increase (creation order), all ids are below the counter, a
non-cancelled task is the one the handler's `ai_task` points at and carries
the newest id, and the wire is monotone in turn ids, below every queued id
and below the counter. -/
theorem schedStep_inv (s : SysState) (x : SchedStep)
    (h1 : List.Pairwise (fun a b => a < b) (s.queue.map GTask.tid))
    (h2 : ∀ t ∈ s.queue, t.tid < s.nextId)
    (h3 : ∀ t ∈ s.queue, t.cancelled = false →
          s.current = some t.tid ∧ t.tid + 1 = s.nextId)
    (h4 : List.Pairwise (fun a b => a ≤ b) (s.wire.map SchedEvent.tid))
    (h5 : ∀ e ∈ s.wire, ∀ t ∈ s.queue, SchedEvent.tid e ≤ t.tid)
    (h6 : ∀ e ∈ s.wire, SchedEvent.tid e < s.nextId) :
    List.Pairwise (fun a b => a < b) ((schedStep s x).queue.map GTask.tid)
    ∧ (∀ t ∈ (schedStep s x).queue, t.tid < (schedStep s x).nextId)
    ∧ (∀ t ∈ (schedStep s x).queue, t.cancelled = false →
        (schedStep s x).current = some t.tid ∧ t.tid + 1 = (schedStep s x).nextId)
    ∧ List.Pairwise (fun a b => a ≤ b) ((schedStep s x).wire.map SchedEvent.tid)
    ∧ (∀ e ∈ (schedStep s x).wire, ∀ t ∈ (schedStep s x).queue,
        SchedEvent.tid e ≤ t.tid)
    ∧ (∀ e ∈ (schedStep s x).wire, SchedEvent.tid e < (schedStep s x).nextId) := by
  cases x with
  | deliver script =>
    simp only [schedStep]
    have htid : ∀ t : GTask,
        (if some t.tid = s.current then { t with cancelled := true } else t).tid
          = t.tid := by
      intro t
      split <;> rfl
    have hmap : (s.queue.map fun t =>
        if some t.tid = s.current then { t with cancelled := true } else t).map
          GTask.tid = s.queue.map GTask.tid := by
      rw [List.map_map]
      exact List.map_congr_left fun t _ => htid t
    refine ⟨?_, ?_, ?_, h4, ?_, ?_⟩
    · rw [List.map_append, hmap]
      rw [List.pairwise_append]
      refine ⟨h1, List.pairwise_singleton _ _, ?_⟩
      intro a ha b hb
      simp only [List.map_cons, List.map_nil, List.mem_singleton] at hb
      subst hb
      rcases List.mem_map.mp ha with ⟨t, ht, rfl⟩
      exact h2 t ht
    · intro t ht
      rcases List.mem_append.mp ht with ht | ht
      · rcases List.mem_map.mp ht with ⟨t0, ht0, rfl⟩
        rw [htid t0]
        exact Nat.lt_succ_of_lt (h2 t0 ht0)
      · simp only [List.mem_singleton] at ht
        subst ht
        exact Nat.lt_succ_self _
    · intro t ht hnc
      rcases List.mem_append.mp ht with ht | ht
      · rcases List.mem_map.mp ht with ⟨t0, ht0, rfl⟩
        by_cases hcur : some t0.tid = s.current
        · rw [if_pos hcur] at hnc ⊢
          exact absurd hnc (by simp)
        · rw [if_neg hcur] at hnc ⊢
          have := (h3 t0 ht0 hnc).1
          exact absurd this.symm hcur
      · simp only [List.mem_singleton] at ht
        subst ht
        exact ⟨rfl, rfl⟩
    · intro e he t ht
      rcases List.mem_append.mp ht with ht | ht
      · rcases List.mem_map.mp ht with ⟨t0, ht0, rfl⟩
        rw [htid t0]
        exact h5 e he t0 ht0
      · simp only [List.mem_singleton] at ht
        subst ht
        exact Nat.le_of_lt (h6 e he)
    · intro e he
      exact Nat.lt_succ_of_lt (h6 e he)
  | runStep =>
    cases hq : s.queue with
    | nil =>
      simp only [schedStep, hq]
      rw [hq] at h1 h2 h3 h5
      exact ⟨h1, h2, h3, h4, h5, h6⟩
    | cons t rest =>
      rw [hq] at h1 h2 h3 h5
      simp only [List.map_cons, List.pairwise_cons] at h1
      obtain ⟨hlt, h1r⟩ := h1
      cases hc : t.cancelled with
      | true =>
        simp only [schedStep, hq, hc, if_true]
        refine ⟨h1r, ?_, ?_, ?_, ?_, ?_⟩
        · intro u hu
          exact h2 u (List.mem_cons_of_mem t hu)
        · intro u hu hnc
          exact h3 u (List.mem_cons_of_mem t hu) hnc
        · rw [List.map_append]
          rw [List.pairwise_append]
          refine ⟨h4, List.pairwise_singleton _ _, ?_⟩
          intro a ha b hb
          simp only [List.map_cons, List.map_nil, List.mem_singleton] at hb
          subst hb
          rcases List.mem_map.mp ha with ⟨e, he, rfl⟩
          exact h5 e he t (List.mem_cons_self t rest)
        · intro e he u hu
          rcases List.mem_append.mp he with he | he
          · exact h5 e he u (List.mem_cons_of_mem t hu)
          · simp only [List.mem_singleton] at he
            subst he
            have := hlt u.tid (List.mem_map_of_mem GTask.tid hu)
            exact Nat.le_of_lt this
        · intro e he
          rcases List.mem_append.mp he with he | he
          · exact h6 e he
          · simp only [List.mem_singleton] at he
            subst he
            exact h2 t (List.mem_cons_self t rest)
      | false =>
        cases hs : t.script with
        | nil =>
          simp only [schedStep, hq, hc, hs, Bool.false_eq_true, if_false]
          refine ⟨h1r, ?_, ?_, h4, ?_, h6⟩
          · intro u hu
            exact h2 u (List.mem_cons_of_mem t hu)
          · intro u hu hnc
            exact h3 u (List.mem_cons_of_mem t hu) hnc
          · intro e he u hu
            exact h5 e he u (List.mem_cons_of_mem t hu)
        | cons ev es =>
          cases hes : es.isEmpty with
          | true =>
            simp only [schedStep, hq, hc, hs, hes, Bool.false_eq_true, if_false,
              if_true]
            refine ⟨h1r, ?_, ?_, ?_, ?_, ?_⟩
            · intro u hu
              exact h2 u (List.mem_cons_of_mem t hu)
            · intro u hu hnc
              exact h3 u (List.mem_cons_of_mem t hu) hnc
            · rw [List.map_append]
              rw [List.pairwise_append]
              refine ⟨h4, List.pairwise_singleton _ _, ?_⟩
              intro a ha b hb
              simp only [List.map_cons, List.map_nil, List.mem_singleton] at hb
              subst hb
              rcases List.mem_map.mp ha with ⟨e, he, rfl⟩
              exact h5 e he t (List.mem_cons_self t rest)
            · intro e he u hu
              rcases List.mem_append.mp he with he | he
              · exact h5 e he u (List.mem_cons_of_mem t hu)
              · simp only [List.mem_singleton] at he
                subst he
                have := hlt u.tid (List.mem_map_of_mem GTask.tid hu)
                exact Nat.le_of_lt this
            · intro e he
              rcases List.mem_append.mp he with he | he
              · exact h6 e he
              · simp only [List.mem_singleton] at he
                subst he
                exact h2 t (List.mem_cons_self t rest)
          | false =>
            have hrest : rest = [] := by
              rw [List.eq_nil_iff_forall_not_mem]
              intro r hr
              have hr1 := hlt r.tid (List.mem_map_of_mem GTask.tid hr)
              have hr2 := h2 r (List.mem_cons_of_mem t hr)
              have hr3 := (h3 t (List.mem_cons_self t rest) hc).2
              omega
            subst hrest
            simp only [schedStep, hq, hc, hs, hes, Bool.false_eq_true, if_false]
            have ht3 := h3 t (List.mem_cons_self t []) hc
            refine ⟨?_, ?_, ?_, ?_, ?_, ?_⟩
            · simp
            · intro u hu
              simp only [List.nil_append, List.mem_singleton] at hu
              subst hu
              exact h2 t (List.mem_cons_self t [])
            · intro u hu hnc
              simp only [List.nil_append, List.mem_singleton] at hu
              subst hu
              exact ht3
            · rw [List.map_append]
              rw [List.pairwise_append]
              refine ⟨h4, List.pairwise_singleton _ _, ?_⟩
              intro a ha b hb
              simp only [List.map_cons, List.map_nil, List.mem_singleton] at hb
              subst hb
              rcases List.mem_map.mp ha with ⟨e, he, rfl⟩
              exact h5 e he t (List.mem_cons_self t [])
            · intro e he u hu
              simp only [List.nil_append, List.mem_singleton] at hu
              subst hu
              rcases List.mem_append.mp he with he | he
              · exact h5 e he t (List.mem_cons_self t [])
              · simp only [List.mem_singleton] at he
                subst he
                exact Nat.le_refl _
            · intro e he
              rcases List.mem_append.mp he with he | he
              · exact h6 e he
              · simp only [List.mem_singleton] at he
                subst he
                exact h2 t (List.mem_cons_self t [])

/-- The invariant holds after any schedule run from an invariant state. -/
theorem runSched_inv (steps : List SchedStep) : ∀ s : SysState,
    List.Pairwise (fun a b => a < b) (s.queue.map GTask.tid) →
    (∀ t ∈ s.queue, t.tid < s.nextId) →
    (∀ t ∈ s.queue, t.cancelled = false →
      s.current = some t.tid ∧ t.tid + 1 = s.nextId) →
    List.Pairwise (fun a b => a ≤ b) (s.wire.map SchedEvent.tid) →
    (∀ e ∈ s.wire, ∀ t ∈ s.queue, SchedEvent.tid e ≤ t.tid) →
    (∀ e ∈ s.wire, SchedEvent.tid e < s.nextId) →
    List.Pairwise (fun a b => a < b) ((runSched s steps).queue.map GTask.tid)
    ∧ (∀ t ∈ (runSched s steps).queue, t.cancelled = false →
        (runSched s steps).current = some t.tid
        ∧ t.tid + 1 = (runSched s steps).nextId)
    ∧ List.Pairwise (fun a b => a ≤ b)
        ((runSched s steps).wire.map SchedEvent.tid) := by
  induction steps with
  | nil =>
    intro s h1 h2 h3 h4 h5 h6
    exact ⟨h1, h3, h4⟩
  | cons x rest ih =>
    intro s h1 h2 h3 h4 h5 h6
    obtain ⟨g1, g2, g3, g4, g5, g6⟩ := schedStep_inv s x h1 h2 h3 h4 h5 h6
    exact ih (schedStep s x) g1 g2 g3 g4 g5 g6

/-- Claim C1: over every interleaving of utterance deliveries and event-loop
steps from a fresh session, at most one non-cancelled GenerationTask exists,
and the wire's turn ids are monotone: once a newer turn has forwarded an
event, no event of an older turn (not even its cancellation acknowledgement)
appears, so two turns' outbound events are never interleaved. -/
theorem c1_single_active_task (steps : List SchedStep) :
    (activeTasks (runSched SysState.init steps)).length ≤ 1
    ∧ List.Pairwise (fun a b => a ≤ b)
        ((runSched SysState.init steps).wire.map SchedEvent.tid) := by
  obtain ⟨g1, g3, g4⟩ := runSched_inv steps SysState.init
    (by simp [SysState.init]) (by simp [SysState.init]) (by simp [SysState.init])
    (by simp [SysState.init]) (by simp [SysState.init]) (by simp [SysState.init])
  refine ⟨?_, g4⟩
  cases hq : activeTasks (runSched SysState.init steps) with
  | nil => simp
  | cons t1 ts =>
    cases ts with
    | nil => simp
    | cons t2 ts2 =>
      exfalso
      have hsub : List.Sublist (activeTasks (runSched SysState.init steps))
          (runSched SysState.init steps).queue := List.filter_sublist _
      have hpw : List.Pairwise (fun a b => a < b)
          ((activeTasks (runSched SysState.init steps)).map GTask.tid) :=
        List.Pairwise.sublist (List.Sublist.map GTask.tid hsub) g1
      rw [hq] at hpw
      simp only [List.map_cons, List.pairwise_cons] at hpw
      have hlt : t1.tid < t2.tid :=
        hpw.1 t2.tid (by simp)
      have hm1 : t1 ∈ (runSched SysState.init steps).queue := by
        have : t1 ∈ activeTasks (runSched SysState.init steps) := by
          rw [hq]; exact List.mem_cons_self _ _
        exact List.mem_of_mem_filter this
      have hm2 : t2 ∈ (runSched SysState.init steps).queue := by
        have : t2 ∈ activeTasks (runSched SysState.init steps) := by
          rw [hq]; exact List.mem_cons_of_mem _ (List.mem_cons_self _ _)
        exact List.mem_of_mem_filter this
      have hc1 : t1.cancelled = false := by
        have : t1 ∈ activeTasks (runSched SysState.init steps) := by
          rw [hq]; exact List.mem_cons_self _ _
        have := List.of_mem_filter this
        simpa using this
      have hc2 : t2.cancelled = false := by
        have : t2 ∈ activeTasks (runSched SysState.init steps) := by
          rw [hq]; exact List.mem_cons_of_mem _ (List.mem_cons_self _ _)
        have := List.of_mem_filter this
        simpa using this
      have e1 := (g3 t1 hm1 hc1).2
      have e2 := (g3 t2 hm2 hc2).2
      omega

end SchedulerInvariant

section ExecutorWire

/-- The wire trace of an action list carries exactly its sends, so the
`question_detected` count and the `answer_cancelled` presence can be read
off the plan. -/
theorem applyActions_wire (acts : List TurnAction) : ∀ pq : List Str,
    countQuestionDetected (applyActions pq acts).1 = (acts.filter isQDSend).length
    ∧ hasCancelledEvent (applyActions pq acts).1 = acts.any isCancelSend
    ∧ hasErrorEvent (applyActions pq acts).1 =
        acts.any (fun a => match a with | .send (.error _) => true | _ => false) := by
  induction acts with
  | nil => intro pq; simp [applyActions, countQuestionDetected, hasCancelledEvent, hasErrorEvent]
  | cons a rest ih =>
    intro pq
    rcases a with e | q
    · rcases ih pq with ⟨ih1, ih2, ih3⟩
      cases e <;>
        simp [applyActions, countQuestionDetected, hasCancelledEvent, hasErrorEvent,
          isQDSend, isCancelSend, List.filter, countQuestionDetected] at ih1 ih2 ih3 ⊢ <;>
        simp [ih1, ih2, ih3]
    · rcases ih (dequePush 10 pq q) with ⟨ih1, ih2, ih3⟩
      simpa [applyActions, isQDSend, isCancelSend] using ⟨ih1, ih2, ih3⟩

/-- Truncation at a send point only removes actions. -/
theorem truncBeforeSend_sublist :
    ∀ (acts : List TurnAction) (k : Nat), List.Sublist (truncBeforeSend k acts) acts := by
  intro acts
  induction acts with
  | nil => intro k; simp [truncBeforeSend]
  | cons a rest ih =>
    intro k
    rcases a with e | q
    · cases k with
      | zero => simp [truncBeforeSend]
      | succ k' =>
        show List.Sublist (TurnAction.send e :: truncBeforeSend k' rest) _
        exact List.Sublist.cons₂ _ (ih k')
    · have h : truncBeforeSend k (TurnAction.appendQ q :: rest) =
          TurnAction.appendQ q :: truncBeforeSend k rest := by
        cases k <;> rfl
      rw [h]
      exact List.Sublist.cons₂ _ (ih k)

/-- A planned turn contains at most one `question_detected` send, never an
`answer_cancelled` send, never an `error` send, and no `question_detected`
at all when the call resolved without a question. -/
theorem plannedActions_shape (id : Nat) (t : Str) (ok : Bool)
    (av : ModelAvailability) (m : Str) (p : ProviderResult) (pq : List Str) :
    ((plannedActions id t ok av m p pq).filter isQDSend).length ≤ 1
    ∧ (plannedActions id t ok av m p pq).any isCancelSend = false
    ∧ (plannedActions id t ok av m p pq).any
        (fun a => match a with | .send (.error _) => true | _ => false) = false
    ∧ ((process_transcript_with_ai t ok av m p).1.has_question = false →
        ((plannedActions id t ok av m p pq).filter isQDSend).length = 0) := by
  unfold plannedActions
  dsimp only
  by_cases hq : (process_transcript_with_ai t ok av m p).1.has_question = true
  · rw [if_pos hq]
    by_cases hdup : (pq.any fun x =>
        lowerStr ((process_transcript_with_ai t ok av m p).1.question.getD []) ==
          lowerStr x) = true
    · rw [if_pos hdup]
      refine ⟨by simp [isQDSend], by simp [isCancelSend], by simp, fun h => ?_⟩
      rw [h] at hq; cases hq
    · rw [if_neg hdup]
      refine ⟨by simp [isQDSend], by simp [isCancelSend], by simp, fun h => ?_⟩
      rw [h] at hq; cases hq
  · rw [if_neg hq]
    exact ⟨by simp [isQDSend], by simp [isCancelSend], by simp,
      fun _ => by simp [isQDSend]⟩

end ExecutorWire

/-- Claim C3: the streaming generator emits its `question` event at most once
per turn and its `done` event only terminally, and on the executed wire each
turn carries at most one `question_detected` — none at all when the turn
resolved with `has_question` false (so never after such a resolution). -/
theorem c3_question_once (t : Str) (oc : StreamOutcome) (id : Nat) (ok : Bool)
    (av : ModelAvailability) (m : Str) (p : ProviderResult) (pq : List Str)
    (env : TurnEnv) :
    countQuestionEvents (runGen t oc) ≤ 1
    ∧ (∀ (l1 : List GenEvent) (r : QAResult) (l2 : List GenEvent),
        runGen t oc = l1 ++ GenEvent.done r :: l2 → l2 = [])
    ∧ countQuestionDetected (run_ai_for_transcript id t ok av m p pq env).1 ≤ 1
    ∧ ((process_transcript_with_ai t ok av m p).1.has_question = false →
        countQuestionDetected (run_ai_for_transcript id t ok av m p pq env).1 = 0) := by
  refine ⟨?_, runGen_done_terminal t oc, ?_, ?_⟩
  · rcases oc with cs | ⟨cs, msg⟩ | cs <;> unfold runGen <;> dsimp only <;> split
    all_goals
      rcases runGenAux_q cs GenState.init with hq | ⟨hq, -⟩ <;>
        simp only [countQuestionEvents_append, hq] <;>
        simp [countQuestionEvents]
  · have hw := applyActions_wire (envActions id t ok av m p pq env) pq
    unfold run_ai_for_transcript
    dsimp only
    rw [hw.1]
    rcases env with _ | _ | _ | k
    · exact (plannedActions_shape id t ok av m p pq).1
    · simp [envActions, isQDSend]
    · simp [envActions, isQDSend]
    · calc ((envActions id t ok av m p pq (.cancelAtSend k)).filter isQDSend).length
          ≤ ((plannedActions id t ok av m p pq).filter isQDSend).length :=
            ((truncBeforeSend_sublist _ k).filter _).length_le
      _ ≤ 1 := (plannedActions_shape id t ok av m p pq).1
  · intro hnq
    have hw := applyActions_wire (envActions id t ok av m p pq env) pq
    unfold run_ai_for_transcript
    dsimp only
    rw [hw.1]
    have hz := (plannedActions_shape id t ok av m p pq).2.2.2 hnq
    rcases env with _ | _ | _ | k
    · exact hz
    · simp [envActions, isQDSend]
    · simp [envActions, isQDSend]
    · have hle : ((envActions id t ok av m p pq (.cancelAtSend k)).filter isQDSend).length
          ≤ ((plannedActions id t ok av m p pq).filter isQDSend).length :=
        ((truncBeforeSend_sublist _ k).filter _).length_le
      omega

/-- Claim C3 (witness): the theorem instantiated at concrete turns — the
generator run on `c2Chunks` splits at its `done` with an empty tail, and the
pre-filtered turn (`has_question` false) carries zero `question_detected`. -/
theorem c3_question_once_witness :
    countQuestionEvents (runGen cacheQuestion (.completes c2Chunks)) ≤ 1
    ∧ ([] : List GenEvent) = []
    ∧ countQuestionDetected (run_ai_for_transcript 1
        (str "Let me know if you need anything else") true avDefault
        (str "gpt-4o") (.ok (str "SKIP")) [] .normal).1 = 0 :=
  ⟨(c3_question_once cacheQuestion (.completes c2Chunks) 1 true avDefault
      (str "gpt-4o") (.ok (str "SKIP")) [] .normal).1,
   (c3_question_once cacheQuestion (.completes c2Chunks) 1 true avDefault
      (str "gpt-4o") (.ok (str "SKIP")) [] .normal).2.1
     [GenEvent.question (str "Explain the CAP theorem"), GenEvent.delta (str " Hi")]
     ⟨true, some (str "Explain the CAP theorem"), some (str "Hi")⟩ [] (by decide),
   (c3_question_once (str "Let me know if you need anything else")
      (.completes c2Chunks) 1 true avDefault (str "gpt-4o") (.ok (str "SKIP")) []
      .normal).2.2.2 (by decide)⟩

/-- A sublist keeps `any f = false`. -/
theorem sublist_any_false {α : Type} {l1 l2 : List α} (hs : List.Sublist l1 l2)
    (f : α → Bool) (h : l2.any f = false) : l1.any f = false := by
  by_contra hx
  rw [Bool.not_eq_false, List.any_eq_true] at hx
  obtain ⟨x, hm, hf⟩ := hx
  have : l2.any f = true := List.any_eq_true.mpr ⟨x, hs.subset hm, hf⟩
  rw [h] at this
  cases this

/-- Claim C4 (counterexample): cancelling the concrete turn at its
`answer_ready` send (send index 2) leaves the detected question appended to
the session's `prev_questions`, and no `answer_cancelled` event is emitted
at all — partial state does survive the aborted turn. -/
theorem c4_counterexample :
    hasCancelledEvent (run_ai_for_transcript 0 cacheQuestion true avDefault
      (str "gpt-4o")
      (.ok (str "QUESTION: Explain the CAP theorem\nANSWER: Hi there.")) []
      (.cancelAtSend 2)).1 = false
    ∧ (run_ai_for_transcript 0 cacheQuestion true avDefault (str "gpt-4o")
        (.ok (str "QUESTION: Explain the CAP theorem\nANSWER: Hi there.")) []
        (.cancelAtSend 2)).2.1 = [str "Explain the CAP theorem"] := by
  exact ⟨by decide, by decide⟩

/-- Claim C4 (amended): only a cancellation caught while the provider call is
awaited produces `answer_cancelled` (and then nothing is written back); a
cancellation at any of the turn's send points — which run outside the
handler's `try` — emits no cancelled event, and a question appended before
that point remains in `prev_questions`. -/
theorem c4_cancellation (id : Nat) (t : Str) (ok : Bool) (av : ModelAvailability)
    (m : Str) (p : ProviderResult) (pq : List Str) :
    (run_ai_for_transcript id t ok av m p pq .cancelDuringCall).1 =
      [.answer_start id, .answer_cancelled id]
    ∧ (run_ai_for_transcript id t ok av m p pq .cancelDuringCall).2.1 = pq
    ∧ (∀ k, hasCancelledEvent
        (run_ai_for_transcript id t ok av m p pq (.cancelAtSend k)).1 = false)
    ∧ (∀ (k : Nat) (q : Str),
        (process_transcript_with_ai t ok av m p).1.has_question = true →
        (process_transcript_with_ai t ok av m p).1.question = some q →
        (pq.any fun x => lowerStr q == lowerStr x) = false →
        1 ≤ k →
        (run_ai_for_transcript id t ok av m p pq (.cancelAtSend k)).2.1 =
          dequePush 10 pq q) := by
  refine ⟨?_, ?_, ?_, ?_⟩
  · simp [run_ai_for_transcript, envActions, applyActions]
  · simp [run_ai_for_transcript, envActions, applyActions]
  · intro k
    have hw := applyActions_wire (envActions id t ok av m p pq (.cancelAtSend k)) pq
    unfold run_ai_for_transcript
    dsimp only
    rw [hw.2.1]
    exact sublist_any_false (truncBeforeSend_sublist _ k) _
      (plannedActions_shape id t ok av m p pq).2.1
  · intro k q hq hqs hdup hk
    have hplan : plannedActions id t ok av m p pq =
        [.send (.answer_start id), .appendQ q,
         .send (.question_detected id q),
         .send (.answer_ready id q ((process_transcript_with_ai t ok av m p).1.answer.getD []))] := by
      unfold plannedActions
      dsimp only
      rw [hq, hqs]
      simp [hdup]
    unfold run_ai_for_transcript
    dsimp only
    rw [show TurnEnv.cancelAtSend k =
      TurnEnv.cancelAtSend k from rfl]
    obtain ⟨n, rfl⟩ : ∃ n, k = n + 1 := ⟨k - 1, by omega⟩
    simp only [envActions, hplan]
    match n with
    | 0 => simp [truncBeforeSend, applyActions]
    | 1 => simp [truncBeforeSend, applyActions]
    | n' + 2 => simp [truncBeforeSend, applyActions]

/-- Claim C4 (witness): the amended behavior at the concrete turn — a caught
cancellation acknowledges and writes nothing, while a cancellation at the
`question_detected` send leaves the question appended. -/
theorem c4_cancellation_witness :
    (run_ai_for_transcript 0 cacheQuestion true avDefault (str "gpt-4o")
        (.ok (str "QUESTION: Explain the CAP theorem\nANSWER: Hi there.")) []
        .cancelDuringCall).1 = [.answer_start 0, .answer_cancelled 0]
    ∧ (run_ai_for_transcript 0 cacheQuestion true avDefault (str "gpt-4o")
        (.ok (str "QUESTION: Explain the CAP theorem\nANSWER: Hi there.")) []
        (.cancelAtSend 1)).2.1 =
      dequePush 10 [] (str "Explain the CAP theorem") :=
  ⟨(c4_cancellation 0 cacheQuestion true avDefault (str "gpt-4o")
      (.ok (str "QUESTION: Explain the CAP theorem\nANSWER: Hi there.")) []).1,
   (c4_cancellation 0 cacheQuestion true avDefault (str "gpt-4o")
      (.ok (str "QUESTION: Explain the CAP theorem\nANSWER: Hi there.")) []).2.2.2
     1 (str "Explain the CAP theorem") (by decide) (by decide) (by decide)
     (by decide)⟩

/-- Claim C5 (counterexample): a provider transport failure in the executed
(non-stream) path is caught by `ask_ai` and returned as an `AI ERROR` text;
`_finalize_parse` finds no markers in it and falls back to treating it as a
normal answer, so the turn ends with `answer_ready` carrying the failure
message and no `error` event at all. -/
theorem c5_counterexample :
    (process_transcript_with_ai cacheQuestion true avDefault (str "gpt-4o")
        (.raises (str "connection reset"))).1 =
      ⟨true, some cacheQuestion,
        some (str "AI ERROR: Model processing failed.\nModel: gpt-4o\nReason: connection reset")⟩
    ∧ hasErrorEvent (run_ai_for_transcript 0 cacheQuestion true avDefault
        (str "gpt-4o") (.raises (str "connection reset")) [] .normal).1 = false
    ∧ hasAnswerEvent (run_ai_for_transcript 0 cacheQuestion true avDefault
        (str "gpt-4o") (.raises (str "connection reset")) [] .normal).1 = true := by
  exact ⟨by decide, by decide, by decide⟩

/-- `process_transcript_with_ai` issues at most one provider request. -/
theorem process_calls_le_one (t : Str) (ok : Bool) (av : ModelAvailability)
    (m : Str) (p : ProviderResult) :
    (process_transcript_with_ai t ok av m p).2 ≤ 1 := by
  unfold process_transcript_with_ai
  repeat' split
  all_goals simp

/-- Claim C5 (amended): a timeout of the executor's 30-second `wait_for`
yields an `error` event and no retry (at most one provider request); but a
failure raised inside the provider call is converted by `ask_ai` into an
`AI ERROR` string, and when the transcript passes the skip filter and the
string carries no markers, `_finalize_parse` surfaces it as a normal answer
(`has_question` true, the failure text as the answer). -/
theorem c5_failure_semantics :
    (∀ (id : Nat) (t : Str) (ok : Bool) (av : ModelAvailability) (m : Str)
        (p : ProviderResult) (pq : List Str),
      (run_ai_for_transcript id t ok av m p pq .timesOut).1 =
        [.answer_start id, .error (str "AI timeout")]
      ∧ (run_ai_for_transcript id t ok av m p pq .timesOut).2.2 ≤ 1)
    ∧ (∀ (t e : Str) (av : ModelAvailability) (m : Str),
        (strip t).isEmpty = false →
        should_skip_transcript t = false →
        should_skip_transcript (strip t) = false →
        (strip (ask_ai av m (.raises e))).isEmpty = false →
        (str "SKIP").isPrefixOf (upperStr (strip (ask_ai av m (.raises e)))) = false →
        (containsSub qMark (strip (ask_ai av m (.raises e))) = false
          ∨ containsSub aMark (strip (ask_ai av m (.raises e))) = false) →
        (process_transcript_with_ai t true av m (.raises e)).1 =
          ⟨true, some (strip t), some (strip (ask_ai av m (.raises e)))⟩
        ∧ (process_transcript_with_ai t true av m (.raises e)).2 = 1) := by
  constructor
  · intro id t ok av m p pq
    constructor
    · simp [run_ai_for_transcript, envActions, applyActions]
    · simp only [run_ai_for_transcript]
      exact process_calls_le_one t ok av m p
  · intro t e av m h1 h2 h3 h4 h5 h6
    unfold process_transcript_with_ai
    rw [if_neg (by simp [h1]), if_neg (by simp), if_neg (by simp [h2])]
    refine ⟨?_, rfl⟩
    unfold finalize_parse
    rw [if_neg (by simp [h4]), if_neg (by simp [h5])]
    have hm : (containsSub qMark (strip (ask_ai av m (.raises e))) &&
        containsSub aMark (strip (ask_ai av m (.raises e)))) = false := by
      rcases h6 with h | h <;> simp [h]
    rw [if_neg (by simp [hm])]
    dsimp only
    rw [if_neg (by simp [h3])]

/-- Claim C5 (witness): the amended statement at the concrete turn — the
timeout path and the failure-surfaced-as-answer path, hypotheses discharged
by evaluation. -/
theorem c5_failure_semantics_witness :
    ((run_ai_for_transcript 5 cacheQuestion true avDefault (str "gpt-4o")
        (.ok (str "QUESTION: Q\nANSWER: A")) [] .timesOut).1 =
      [.answer_start 5, .error (str "AI timeout")]
      ∧ (run_ai_for_transcript 5 cacheQuestion true avDefault (str "gpt-4o")
          (.ok (str "QUESTION: Q\nANSWER: A")) [] .timesOut).2.2 ≤ 1)
    ∧ ((process_transcript_with_ai cacheQuestion true avDefault (str "gpt-4o")
        (.raises (str "connection reset"))).1 =
      ⟨true, some (strip cacheQuestion),
        some (strip (ask_ai avDefault (str "gpt-4o")
          (.raises (str "connection reset"))))⟩
      ∧ (process_transcript_with_ai cacheQuestion true avDefault (str "gpt-4o")
          (.raises (str "connection reset"))).2 = 1) :=
  ⟨c5_failure_semantics.1 5 cacheQuestion true avDefault (str "gpt-4o")
      (.ok (str "QUESTION: Q\nANSWER: A")) [],
   c5_failure_semantics.2 cacheQuestion (str "connection reset") avDefault
     (str "gpt-4o") (by decide) (by decide) (by decide) (by decide) (by decide)
     (Or.inl (by decide))⟩

section WhitespaceToolkit

theorem lstrip_no_ws_head : ∀ {s : Str} {c : Char} {t : Str},
    lstrip s = c :: t → isWS c = false := by
  intro s
  induction s with
  | nil => intro c t h; simp [lstrip] at h
  | cons a rest ih =>
    intro c t h
    rw [lstrip, List.dropWhile_cons] at h
    split at h
    · exact ih (by rwa [lstrip])
    · rename_i hws
      injection h with h1 _
      subst h1
      simpa using hws

theorem lstrip_of_head {c : Char} {t : Str} (h : isWS c = false) :
    lstrip (c :: t) = c :: t := by
  rw [lstrip, List.dropWhile_cons, if_neg (by simp [h])]

theorem lstrip_idem (s : Str) : lstrip (lstrip s) = lstrip s := by
  cases h : lstrip s with
  | nil => simp [lstrip]
  | cons c t => exact lstrip_of_head (lstrip_no_ws_head h)

theorem lstrip_ws_cons {c : Char} (h : isWS c = true) (t : Str) :
    lstrip (c :: t) = lstrip t := by
  rw [lstrip, List.dropWhile_cons, if_pos (by simp [h])]
  rfl

/-- Prepending all-whitespace text does not change `lstrip`. -/
theorem lstrip_ws_append {w : Str} (hw : ∀ c ∈ w, isWS c = true) (y : Str) :
    lstrip (w ++ y) = lstrip y := by
  induction w with
  | nil => simp
  | cons c rest ih =>
    rw [List.cons_append, lstrip_ws_cons (hw c (List.mem_cons_self c rest))]
    exact ih fun c' hm => hw c' (List.mem_cons_of_mem c hm)

theorem rstrip_reverse (s : Str) : (rstrip s).reverse = lstrip s.reverse := by
  rw [rstrip, lstrip, List.reverse_reverse]

/-- Appending all-whitespace text does not change `rstrip`. -/
theorem rstrip_ws_append {w : Str} (hw : ∀ c ∈ w, isWS c = true) (x : Str) :
    rstrip (x ++ w) = rstrip x := by
  have h2 : (rstrip (x ++ w)).reverse = (rstrip x).reverse := by
    rw [rstrip_reverse, rstrip_reverse, List.reverse_append,
      lstrip_ws_append (fun c hm => hw c (by simpa using hm))]
  have h3 := congrArg List.reverse h2
  simpa using h3

/-- Appending all-whitespace text does not change `strip` either. -/
theorem strip_ws_append {w : Str} (hw : ∀ c ∈ w, isWS c = true) (x : Str) :
    strip (x ++ w) = strip x := by
  rw [strip, rstrip_ws_append hw, ← strip]

/-- Whitespace decomposition on the right: the text is its `rstrip` plus an
all-whitespace tail. -/
theorem rstrip_decomp (s : Str) :
    ∃ w, s = rstrip s ++ w ∧ ∀ c ∈ w, isWS c = true := by
  refine ⟨(s.reverse.takeWhile isWS).reverse, ?_, ?_⟩
  · conv_lhs => rw [← List.reverse_reverse s,
      ← @List.takeWhile_append_dropWhile Char isWS s.reverse]
    rw [List.reverse_append, rstrip]
  · intro c hm
    rw [List.mem_reverse] at hm
    exact List.mem_takeWhile_imp hm

/-- Whitespace decomposition on the left. -/
theorem lstrip_decomp (s : Str) :
    ∃ w, s = w ++ lstrip s ∧ ∀ c ∈ w, isWS c = true := by
  refine ⟨s.takeWhile isWS, ?_, fun c hm => List.mem_takeWhile_imp hm⟩
  rw [lstrip, List.takeWhile_append_dropWhile]

theorem strip_decomp (s : Str) :
    ∃ v w, s = v ++ strip s ++ w
      ∧ (∀ c ∈ v, isWS c = true) ∧ ∀ c ∈ w, isWS c = true := by
  obtain ⟨w, hw, hwws⟩ := rstrip_decomp s
  obtain ⟨v, hv, hvws⟩ := lstrip_decomp (rstrip s)
  exact ⟨v, w, by rw [strip, ← hv, ← hw], hvws, hwws⟩

theorem lstrip_length_le (s : Str) : (lstrip s).length ≤ s.length := by
  induction s with
  | nil => simp [lstrip]
  | cons a rest ih =>
    rw [lstrip, List.dropWhile_cons]
    split
    · rw [← lstrip]; simp only [List.length_cons]; omega
    · simp

theorem lstrip_of_length (s : Str) (h : (lstrip s).length = s.length) :
    lstrip s = s := by
  cases s with
  | nil => simp [lstrip]
  | cons a rest =>
    rw [lstrip, List.dropWhile_cons]
    rw [lstrip, List.dropWhile_cons] at h
    split <;> rename_i hws
    · rw [if_pos hws] at h
      have := lstrip_length_le rest
      rw [lstrip] at this
      simp only [List.length_cons] at h
      omega
    · rfl

theorem rstrip_length_le (s : Str) : (rstrip s).length ≤ s.length := by
  have := lstrip_length_le s.reverse
  simpa [rstrip] using this

theorem rstrip_of_length (s : Str) (h : (rstrip s).length = s.length) :
    rstrip s = s := by
  have h2 : (lstrip s.reverse).length = s.reverse.length := by
    have := congrArg List.length (rstrip_reverse s)
    simp only [List.length_reverse] at this ⊢
    omega
  have h3 := lstrip_of_length s.reverse h2
  have : (rstrip s).reverse = s.reverse := by rw [rstrip_reverse, h3]
  have := congrArg List.reverse this
  simpa using this

/-- A `strip` fixpoint is both an `lstrip` and an `rstrip` fixpoint. -/
theorem strip_fix (s : Str) (h : strip s = s) :
    lstrip s = s ∧ rstrip s = s := by
  have hlen : (strip s).length = s.length := by rw [h]
  have hle1 : (strip s).length ≤ (rstrip s).length := by
    rw [strip]; exact lstrip_length_le _
  have hle2 := rstrip_length_le s
  have hr : rstrip s = s := rstrip_of_length s (by omega)
  have hl : lstrip s = s := by
    have := h
    rw [strip, hr] at this
    exact this
  exact ⟨hl, hr⟩

theorem strip_of_fix {s : Str} (hl : lstrip s = s) (hr : rstrip s = s) :
    strip s = s := by
  rw [strip, hr, hl]

theorem strip_idem (s : Str) : strip (strip s) = strip s := by
  have hl : lstrip (strip s) = strip s := by rw [strip, lstrip_idem]
  have hr : rstrip (strip s) = strip s := by
    obtain ⟨w, hw, hwws⟩ := lstrip_decomp (rstrip s)
    show rstrip (lstrip (rstrip s)) = lstrip (rstrip s)
    cases hcase : lstrip (rstrip s) with
    | nil => simp [rstrip, lstrip]
    | cons c t =>
      -- the reverse of `lstrip (rstrip s)` has the same head as the reverse
      -- of `rstrip s`, whose head is not whitespace
      have hrev : (rstrip s).reverse = (c :: t).reverse ++ w.reverse := by
        rw [hw, hcase, List.reverse_append]
      have hfix : lstrip (rstrip s).reverse = (rstrip s).reverse := by
        rw [rstrip_reverse, lstrip_idem]
      cases htrev : (c :: t).reverse with
      | nil => simp at htrev
      | cons c' t' =>
        have hrev2 : (rstrip s).reverse = c' :: (t' ++ w.reverse) := by
          rw [hrev, htrev, List.cons_append]
        have hc' : isWS c' = false := by
          apply @lstrip_no_ws_head ((rstrip s).reverse)
          rw [hfix, hrev2]
        have h2 : (rstrip (c :: t)).reverse = (c :: t).reverse := by
          rw [rstrip_reverse, htrev, lstrip_of_head hc']
        have h3 := congrArg List.reverse h2
        simpa using h3
  exact strip_of_fix hl hr

/-- Joining two nonempty stripped strings with a single space is stripped. -/
theorem strip_join {s t : Str} (hs : strip s = s) (ht : strip t = t)
    (hsne : s ≠ []) (htne : t ≠ []) :
    strip (s ++ ' ' :: t) = s ++ ' ' :: t := by
  obtain ⟨hsl, hsr⟩ := strip_fix s hs
  obtain ⟨htl, htr⟩ := strip_fix t ht
  apply strip_of_fix
  · cases s with
    | nil => exact absurd rfl hsne
    | cons c rest =>
      have hc : isWS c = false := lstrip_no_ws_head hsl
      rw [List.cons_append]
      exact lstrip_of_head hc
  · -- via the reverse: the last char of `t` is not whitespace
    cases hcase : t.reverse with
    | nil => simp_all
    | cons c rest =>
      have hc : isWS c = false := by
        apply @lstrip_no_ws_head t.reverse
        rw [← rstrip_reverse, htr, hcase]
      have hrev : (s ++ ' ' :: t).reverse = c :: (rest ++ ' ' :: s.reverse) := by
        rw [List.reverse_append, show (' ' :: t : Str).reverse = t.reverse ++ [' '] by simp,
          hcase]
        simp
      have h2 : (rstrip (s ++ ' ' :: t)).reverse = (s ++ ' ' :: t).reverse := by
        rw [rstrip_reverse, hrev, lstrip_of_head hc, ← hrev]
      have h3 := congrArg List.reverse h2
      simpa using h3

end WhitespaceToolkit

section SegmenterMinLength

/-- The invariant carried by the running accumulator: the pending paragraph
is stripped (no surrounding whitespace), and the configured minimum is the
system default 10. -/
theorem accInit_invariant :
    strip AccState.init.current_paragraph = AccState.init.current_paragraph
    ∧ AccState.init.min_question_length = 10 := by
  constructor <;> rfl

set_option maxHeartbeats 1600000 in
/-- `add_transcript` preserves the invariant and only emits utterances of at
least the configured minimum length. -/
theorem add_transcript_cases (st : AccState) (t : Str) (f sf : Bool)
    (now : QTime)
    (hcp : strip st.current_paragraph = st.current_paragraph)
    (st' : AccState) (out : Option Str)
    (heq : add_transcript st t f sf now = (st', out)) :
    strip st'.current_paragraph = st'.current_paragraph
    ∧ st'.min_question_length = st.min_question_length
    ∧ ∀ u, out = some u → st.min_question_length ≤ u.length := by
  unfold add_transcript at heq
  dsimp only at heq
  repeat' split at heq
  all_goals
    rw [Prod.mk.injEq] at heq
  all_goals
    obtain ⟨hst, hout⟩ := heq
  all_goals
    subst hst
  all_goals
    subst hout
  all_goals refine ⟨?_, rfl, fun u h => ?_⟩
  all_goals try exact hcp
  all_goals try exact strip_idem t
  all_goals try rfl
  all_goals try exact Option.noConfusion h
  all_goals try
    (simp only [Option.some.injEq] at h
     subst h
     simp only [Bool.and_eq_true, decide_eq_true_eq, ge_iff_le] at *
     omega)
  all_goals
    rw [List.append_assoc,
      show ([' '] ++ strip t : Str) = ' ' :: strip t from rfl]
  all_goals
    apply strip_join hcp (strip_idem t) <;> simp_all

/-- `force_complete` preserves the invariant and only flushes buffers of at
least the configured minimum length. -/
theorem force_complete_cases (st : AccState)
    (hcp : strip st.current_paragraph = st.current_paragraph)
    (st' : AccState) (out : Option Str)
    (heq : force_complete st = (st', out)) :
    strip st'.current_paragraph = st'.current_paragraph
    ∧ st'.min_question_length = st.min_question_length
    ∧ ∀ u, out = some u → st.min_question_length ≤ u.length := by
  unfold force_complete at heq
  split at heq
  · rw [Prod.mk.injEq] at heq
    obtain ⟨hst, hout⟩ := heq
    subst hst; subst hout
    refine ⟨rfl, rfl, fun u h => ?_⟩
    simp only [Option.some.injEq] at h
    subst h
    rw [hcp]
    rename_i hcond
    simp only [Bool.and_eq_true, decide_eq_true_eq] at hcond
    exact hcond.2
  · rw [Prod.mk.injEq] at heq
    obtain ⟨hst, hout⟩ := heq
    subst hst; subst hout
    exact ⟨hcp, rfl, fun u h => Option.noConfusion h⟩

/-- Running any call sequence from a state with a stripped buffer only emits
utterances of at least the state's configured minimum length. -/
theorem runAcc_min (calls : List AccCall) : ∀ st : AccState,
    strip st.current_paragraph = st.current_paragraph →
    ∀ u ∈ (runAcc st calls).2, st.min_question_length ≤ u.length := by
  induction calls with
  | nil => intro st _ u hu; simp [runAcc] at hu
  | cons c rest ih =>
    intro st hst u hu
    rw [runAcc] at hu
    dsimp only at hu
    rcases hc : accStep st c with ⟨st1, out⟩
    rw [hc] at hu
    dsimp only at hu
    rw [List.mem_append] at hu
    have hinv : strip st1.current_paragraph = st1.current_paragraph
        ∧ st1.min_question_length = st.min_question_length
        ∧ ∀ v, out = some v → st.min_question_length ≤ v.length := by
      cases c with
      | frag t f sf now => exact add_transcript_cases st t f sf now hst st1 out hc
      | force => exact force_complete_cases st hst st1 out hc
    rcases hu with hu | hu
    · rcases out with _ | v
      · simp at hu
      · simp only [Option.toList_some, List.mem_singleton] at hu
        subst hu
        exact hinv.2.2 _ rfl
    · have h2 := ih st1 hinv.1 u hu
      rw [hinv.2.1] at h2
      exact h2

/-- Claim C7: over any call sequence (fragments at arbitrary times plus
`force_complete` flushes) from a fresh accumulator, every emitted utterance
is at least the default minimum of 10 characters long. -/
theorem c7_min_length (calls : List AccCall) (u : Str)
    (hu : u ∈ (runAcc AccState.init calls).2) : 10 ≤ u.length := by
  have h := runAcc_min calls AccState.init rfl u hu
  simpa using h

/-- Claim C7 (witness): the concrete run emits a 24-character utterance. -/
theorem c7_min_length_witness :
    (str "what do you like to eat?") ∈ (runAcc AccState.init c8Calls).2
    ∧ 10 ≤ (str "what do you like to eat?").length :=
  ⟨by decide, c7_min_length c8Calls _ (by decide)⟩

end SegmenterMinLength

end AceInterview
